import Mathlib

/-!
# Verification of the calibration-value extractor (Advent of Code 2023 day 1)

Shallow embedding of `src/src/main.rs`. Lines are modelled as `List Char`;
Rust byte-oriented string operations (`str::find`, `str::rfind`,
`String::len`) are modelled through an explicit UTF-8 encoding, while the
character-oriented ones (`str::chars().enumerate()`) work on the char list
directly, exactly as in the source.
-/

namespace AocDay1

/-- The Unicode codepoint ranges of general categories Nd, Nl and No
(Unicode 14), which is the set of characters accepted by Rust's
`char::is_numeric`. -/
def numericRanges : List (Nat × Nat) := [
  (48, 57), (178, 179), (185, 185), (188, 190), (1632, 1641), (1776, 1785),
  (1984, 1993), (2406, 2415), (2534, 2543), (2548, 2553), (2662, 2671), (2790, 2799),
  (2918, 2927), (2930, 2935), (3046, 3058), (3174, 3183), (3192, 3198), (3302, 3311),
  (3416, 3422), (3430, 3448), (3558, 3567), (3664, 3673), (3792, 3801), (3872, 3891),
  (4160, 4169), (4240, 4249), (4969, 4988), (5870, 5872), (6112, 6121), (6128, 6137),
  (6160, 6169), (6470, 6479), (6608, 6618), (6784, 6793), (6800, 6809), (6992, 7001),
  (7088, 7097), (7232, 7241), (7248, 7257), (8304, 8304), (8308, 8313), (8320, 8329),
  (8528, 8578), (8581, 8585), (9312, 9371), (9450, 9471), (10102, 10131), (11517, 11517),
  (12295, 12295), (12321, 12329), (12344, 12346), (12690, 12693), (12832, 12841), (12872, 12879),
  (12881, 12895), (12928, 12937), (12977, 12991), (42528, 42537), (42726, 42735), (43056, 43061),
  (43216, 43225), (43264, 43273), (43472, 43481), (43504, 43513), (43600, 43609), (44016, 44025),
  (65296, 65305), (65799, 65843), (65856, 65912), (65930, 65931), (66273, 66299), (66336, 66339),
  (66369, 66369), (66378, 66378), (66513, 66517), (66720, 66729), (67672, 67679), (67705, 67711),
  (67751, 67759), (67835, 67839), (67862, 67867), (68028, 68029), (68032, 68047), (68050, 68095),
  (68160, 68168), (68221, 68222), (68253, 68255), (68331, 68335), (68440, 68447), (68472, 68479),
  (68521, 68527), (68858, 68863), (68912, 68921), (69216, 69246), (69405, 69414), (69457, 69460),
  (69573, 69579), (69714, 69743), (69872, 69881), (69942, 69951), (70096, 70105), (70113, 70132),
  (70384, 70393), (70736, 70745), (70864, 70873), (71248, 71257), (71360, 71369), (71472, 71483),
  (71904, 71922), (72016, 72025), (72784, 72812), (73040, 73049), (73120, 73129), (73664, 73684),
  (74752, 74862), (92768, 92777), (92864, 92873), (93008, 93017), (93019, 93025), (93824, 93846),
  (119520, 119539), (119648, 119672), (120782, 120831), (123200, 123209), (123632, 123641), (125127, 125135),
  (125264, 125273), (126065, 126123), (126125, 126127), (126129, 126132), (126209, 126253), (126255, 126269),
  (127232, 127244), (130032, 130041)]

/-- Rust's `char::is_numeric`: true exactly on Unicode categories Nd, Nl, No. -/
def rustIsNumeric (c : Char) : Bool :=
  numericRanges.any (fun r => decide (r.1 ≤ c.toNat) && decide (c.toNat ≤ r.2))

/-- UTF-8 encoding of one character, as the list of its byte values. -/
def utf8Bytes (c : Char) : List Nat :=
  let n := c.toNat
  if n < 128 then [n]
  else if n < 2048 then [192 + n / 64, 128 + n % 64]
  else if n < 65536 then [224 + n / 4096, 128 + n / 64 % 64, 128 + n % 64]
  else [240 + n / 262144, 128 + n / 4096 % 64, 128 + n / 64 % 64, 128 + n % 64]

/-- The UTF-8 byte sequence of a string, as Rust's `str` stores it. -/
def strBytes (s : List Char) : List Nat :=
  s.foldr (fun c acc => utf8Bytes c ++ acc) []

/-- Least `j` with `p j`, scanning `j = i, i+1, ...` for `fuel` steps. -/
def findFrom (p : Nat → Bool) (i : Nat) : Nat → Option Nat
  | 0 => none
  | fuel + 1 => if p i then some i else findFrom p (i + 1) fuel

/-- Greatest `j ≤ n` with `p j`, scanning downward from `n`. -/
def rfindDown (p : Nat → Bool) : Nat → Option Nat
  | 0 => if p 0 then some 0 else none
  | n + 1 => if p (n + 1) then some (n + 1) else rfindDown p n

/-- Byte-level substring occurrence: the bytes of `pat` occur in the bytes of
`s` starting at byte offset `j`. This is the match condition of Rust's
`str::find`/`str::rfind` (which report byte offsets). -/
def subAt (s pat : List Char) (j : Nat) : Bool :=
  (strBytes pat).isPrefixOf ((strBytes s).drop j)

/-- Rust `s.find(pat)`: least byte offset at which `pat` occurs in `s`. -/
def rustFind (s pat : List Char) : Option Nat :=
  findFrom (subAt s pat) 0 ((strBytes s).length + 1)

/-- Rust `s.rfind(pat)`: greatest byte offset at which `pat` occurs in `s`. -/
def rustRfind (s pat : List Char) : Option Nat :=
  rfindDown (subAt s pat) (strBytes s).length

/-- `const DIGITS: &[&str]` from the source: the nine digit words. -/
def DIGITS : List (List Char) :=
  ["one", "two", "three", "four", "five", "six", "seven", "eight", "nine"].map String.toList

/-- Rust `Iterator::min_by_key` on the index component: the minimum, the
earliest listed element winning ties. -/
def minByIdx : List (List Char × Nat) → Option (List Char × Nat)
  | [] => none
  | x :: xs =>
    match minByIdx xs with
    | none => some x
    | some y => if x.2 ≤ y.2 then some x else some y

/-- `find_first_alpha_digit`: each digit word's leftmost occurrence, then the
candidate with the least index. -/
def find_first_alpha_digit (s : List Char) : Option (List Char × Nat) :=
  minByIdx (DIGITS.filterMap (fun w => (rustFind s w).map (fun i => (w, i))))

/-- Loop body of `find_last_alpha_digit`: keep the candidate with the
strictly greater index. -/
def lastAlphaStep (s : List Char) (acc : Option (List Char × Nat)) (w : List Char) :
    Option (List Char × Nat) :=
  match rustRfind s w with
  | none => acc
  | some i =>
    match acc with
    | none => some (w, i)
    | some (w0, last) => if last < i then some (w, i) else some (w0, last)

/-- `find_last_alpha_digit`: fold over the nine words, keeping the rightmost
occurrence found so far (strict comparison, as in the source). -/
def find_last_alpha_digit (s : List Char) : Option (List Char × Nat) :=
  DIGITS.foldl (lastAlphaStep s) none

/-- `alpha_to_numeric`: the word's position in `DIGITS` plus one, rendered in
decimal (`(result as u8 + 1).to_string()`). -/
def alpha_to_numeric (w : List Char) : Option (List Char) :=
  (DIGITS.findIdx? (fun d => d == w)).map (fun r => Nat.toDigits 10 (r + 1))

/-- Helper for `find_numeric_digit`: first char satisfying `is_numeric`,
with its enumeration index. -/
def findNumAux : List Char → Nat → Option (Char × Nat)
  | [], _ => none
  | c :: cs, i => if rustIsNumeric c then some (c, i) else findNumAux cs (i + 1)

/-- Helper for `rev_find_numeric_digit`: last char satisfying `is_numeric`,
with its enumeration index. -/
def rfindNumAux : List Char → Nat → Option (Char × Nat)
  | [], _ => none
  | c :: cs, i =>
    match rfindNumAux cs (i + 1) with
    | some r => some r
    | none => if rustIsNumeric c then some (c, i) else none

/-- `find_numeric_digit`: first `is_numeric` char and its enumeration index. -/
def find_numeric_digit (s : List Char) : Option (List Char × Nat) :=
  (findNumAux s 0).map (fun p => ([p.1], p.2))

/-- `rev_find_numeric_digit`: last `is_numeric` char and its enumeration index. -/
def rev_find_numeric_digit (s : List Char) : Option (List Char × Nat) :=
  (rfindNumAux s 0).map (fun p => ([p.1], p.2))

/-- `find_first_numeric_digit`. -/
def find_first_numeric_digit (s : List Char) : Option (List Char × Nat) :=
  find_numeric_digit s

/-- `find_last_numeric_digit`. -/
def find_last_numeric_digit (s : List Char) : Option (List Char × Nat) :=
  rev_find_numeric_digit s

/-- `get_first_digit`: numeric wins only on a strictly smaller index. -/
def get_first_digit (line : List Char) : Option (List Char) :=
  match find_first_numeric_digit line, find_first_alpha_digit line with
  | some (nd, ni), some (ad, ai) => if ni < ai then some nd else alpha_to_numeric ad
  | some (nd, _), none => some nd
  | none, some (ad, _) => alpha_to_numeric ad
  | none, none => none

/-- `get_last_digit`: numeric wins only on a strictly greater index. -/
def get_last_digit (line : List Char) : Option (List Char) :=
  match find_last_numeric_digit line, find_last_alpha_digit line with
  | some (nd, ni), some (ad, ai) => if ai < ni then some nd else alpha_to_numeric ad
  | some (nd, _), none => some nd
  | none, some (ad, _) => alpha_to_numeric ad
  | none, none => none

/-- ASCII decimal digit character (codepoints 48..57, i.e. '0'..'9'). -/
def isAsciiDigit (c : Char) : Bool := decide (48 ≤ c.toNat) && decide (c.toNat ≤ 57)

/-- Numeric value of an ASCII digit character. -/
def digitVal (c : Char) : Nat := c.toNat - 48

/-- Rust `str::parse::<u32>`: optional leading `+`, then one or more ASCII
decimal digits, rejecting values outside `u32`. `none` models `Err`. -/
def parse_u32 (s : List Char) : Option Nat :=
  let ds := if s.head? = some '+' then s.tail else s
  if ds.isEmpty then none
  else if ds.all isAsciiDigit then
    let v := ds.foldl (fun a c => a * 10 + digitVal c) 0
    if v < 4294967296 then some v else none
  else none

/-- `get_coord`: concatenate the two digits, assert the *byte* length is 2
(Rust `String::len` counts bytes), then parse. `none` models the panic of a
failed `assert!` or `unwrap`. -/
def get_coord (line : List Char) : Option Nat :=
  let coord : List Char :=
    (match get_first_digit line with | some d => d | none => []) ++
    (match get_last_digit line with | some d => d | none => [])
  if (strBytes coord).length = 2 then parse_u32 coord else none

/-- One step of `main`'s accumulation loop: `sum += get_coord(line)` on a
`u32` accumulator; `none` models a panic (extraction failure or, in a debug
build, `u32` overflow). -/
def addCoord (acc : Option Nat) (line : List Char) : Option Nat :=
  match acc, get_coord line with
  | some a, some c => if a + c < 4294967296 then some (a + c) else none
  | _, _ => none

/-- `main`'s summation over the input lines. -/
def run_lines (lines : List (List Char)) : Option Nat :=
  lines.foldl addCoord (some 0)

/-- The arithmetic sum of the per-line extraction values. -/
def totalOf (lines : List (List Char)) : Nat :=
  (lines.map (fun l => (get_coord l).getD 0)).sum

/-! ## Specification-side vocabulary (stated from the spec, for comparison) -/

/-- The line consists solely of ASCII characters. -/
def allAscii (s : List Char) : Bool := s.all (fun c => decide (c.toNat < 128))

/-- Character-level substring occurrence at character position `i`. -/
def charOccursAt (s w : List Char) (i : Nat) : Bool := w.isPrefixOf (s.drop i)

/-- The spec's mapping of the nine digit words to the values 1..9. -/
def wordVal (w : List Char) : Nat :=
  if w = "one".toList then 1
  else if w = "two".toList then 2
  else if w = "three".toList then 3
  else if w = "four".toList then 4
  else if w = "five".toList then 5
  else if w = "six".toList then 6
  else if w = "seven".toList then 7
  else if w = "eight".toList then 8
  else if w = "nine".toList then 9
  else 0

/-- The ASCII digit character of a value `0..9`. -/
def digitChar (n : Nat) : Char := Char.ofNat (48 + n)

/-- Spec-side "leftmost ASCII numeral": `s` splits as `pre ++ c :: post` with
`c` the first ASCII digit and `i` its character index. -/
def firstNumAt (s : List Char) (c : Char) (i : Nat) : Prop :=
  ∃ pre post, s = pre ++ c :: post ∧ i = pre.length ∧ isAsciiDigit c = true ∧
    ∀ c' ∈ pre, isAsciiDigit c' = false

/-- Spec-side "rightmost ASCII numeral". -/
def lastNumAt (s : List Char) (c : Char) (i : Nat) : Prop :=
  ∃ pre post, s = pre ++ c :: post ∧ i = pre.length ∧ isAsciiDigit c = true ∧
    ∀ c' ∈ post, isAsciiDigit c' = false

/-- Spec-side "leftmost digit-word occurrence": word `w` occurs at character
position `i`, and no digit word occurs strictly earlier. -/
def firstWordAt (s w : List Char) (i : Nat) : Prop :=
  w ∈ DIGITS ∧ charOccursAt s w i = true ∧
    ∀ w' ∈ DIGITS, ∀ j, charOccursAt s w' j = true → i ≤ j

/-- Spec-side "rightmost digit-word occurrence": word `w` occurs at character
position `i`, and no digit word occurs strictly later. -/
def lastWordAt (s w : List Char) (i : Nat) : Prop :=
  w ∈ DIGITS ∧ charOccursAt s w i = true ∧
    ∀ w' ∈ DIGITS, ∀ j, charOccursAt s w' j = true → j ≤ i

/-- Spec-side "the line contains at least one digit occurrence": an ASCII
numeral character or an occurrence of one of the nine digit words. -/
def hasDigitOcc (s : List Char) : Prop :=
  (∃ c ∈ s, isAsciiDigit c = true) ∨ (∃ w ∈ DIGITS, ∃ i, charOccursAt s w i = true)

/-! ## Basic facts about the UTF-8 layer -/

theorem utf8Bytes_ascii {c : Char} (h : c.toNat < 128) : utf8Bytes c = [c.toNat] := by
  simp [utf8Bytes, h]

theorem utf8Bytes_ne_nil (c : Char) : utf8Bytes c ≠ [] := by
  by_cases h1 : c.toNat < 128 <;> by_cases h2 : c.toNat < 2048 <;>
    by_cases h3 : c.toNat < 65536 <;> simp [utf8Bytes, h1, h2, h3]

theorem utf8Bytes_length_one {c : Char} (h : (utf8Bytes c).length = 1) : c.toNat < 128 := by
  by_contra hc
  by_cases h2 : c.toNat < 2048 <;> by_cases h3 : c.toNat < 65536 <;>
    simp [utf8Bytes, hc, h2, h3] at h

theorem strBytes_nil : strBytes [] = [] := rfl

theorem strBytes_cons (c : Char) (s : List Char) :
    strBytes (c :: s) = utf8Bytes c ++ strBytes s := rfl

theorem strBytes_append (s t : List Char) :
    strBytes (s ++ t) = strBytes s ++ strBytes t := by
  induction s with
  | nil => rfl
  | cons c s ih => simp [strBytes_cons, ih]

theorem strBytes_eq_nil {s : List Char} (h : strBytes s = []) : s = [] := by
  cases s with
  | nil => rfl
  | cons c s =>
    rw [strBytes_cons] at h
    exact absurd (List.append_eq_nil.mp h).1 (utf8Bytes_ne_nil c)

theorem allAscii_mem {s : List Char} (h : allAscii s = true) {c : Char} (hc : c ∈ s) :
    c.toNat < 128 := by
  rw [allAscii, List.all_eq_true] at h
  simpa using h c hc

theorem strBytes_ascii {s : List Char} (h : allAscii s = true) :
    strBytes s = s.map Char.toNat := by
  induction s with
  | nil => rfl
  | cons c s ih =>
    rw [allAscii, List.all_cons, Bool.and_eq_true] at h
    rw [strBytes_cons, utf8Bytes_ascii (by simpa using h.1), ih h.2, List.map_cons]
    rfl

set_option maxRecDepth 4000 in
theorem numeric_ascii_iff : ∀ n : Nat, n < 128 →
    ((numericRanges.any (fun r => decide (r.1 ≤ n) && decide (n ≤ r.2))) =
      (decide (48 ≤ n) && decide (n ≤ 57))) := by decide

theorem rustIsNumeric_ascii {c : Char} (h : c.toNat < 128) :
    rustIsNumeric c = isAsciiDigit c := by
  rw [rustIsNumeric, isAsciiDigit]
  exact numeric_ascii_iff c.toNat h

theorem char_toNat_inj {c d : Char} (h : c.toNat = d.toNat) : c = d := by
  have h2 := congrArg Char.ofNat h
  rwa [Char.ofNat_toNat, Char.ofNat_toNat] at h2

theorem prefix_map_toNat (w l : List Char) :
    ((w.map Char.toNat) <+: (l.map Char.toNat)) ↔ w <+: l := by
  induction w generalizing l with
  | nil => simp
  | cons c w ih =>
    cases l with
    | nil => simp
    | cons d l =>
      simp only [List.map_cons, List.cons_prefix_cons, ih]
      constructor
      · rintro ⟨h1, h2⟩
        exact ⟨char_toNat_inj h1, h2⟩
      · rintro ⟨h1, h2⟩
        exact ⟨congrArg Char.toNat h1, h2⟩

theorem subAt_ascii {s w : List Char} (hs : allAscii s = true) (hw : allAscii w = true)
    (j : Nat) : subAt s w j = charOccursAt s w j := by
  rw [subAt, charOccursAt, strBytes_ascii hs, strBytes_ascii hw, ← List.map_drop]
  rw [Bool.eq_iff_iff, List.isPrefixOf_iff_prefix, List.isPrefixOf_iff_prefix]
  exact prefix_map_toNat _ _

theorem charOccursAt_lt_length {s w : List Char} {j : Nat}
    (h : charOccursAt s w j = true) (hw : w ≠ []) : j < s.length := by
  by_contra hj
  push_neg at hj
  rw [charOccursAt, List.drop_eq_nil_of_le hj] at h
  cases w with
  | nil => exact hw rfl
  | cons c w => simp [List.isPrefixOf] at h

/-! ## The linear scans `findFrom` and `rfindDown` -/

theorem findFrom_eq_some {p : Nat → Bool} :
    ∀ {fuel i j : Nat}, findFrom p i fuel = some j →
      i ≤ j ∧ j < i + fuel ∧ p j = true ∧ ∀ k, i ≤ k → k < j → p k = false := by
  intro fuel
  induction fuel with
  | zero => intro i j h; simp [findFrom] at h
  | succ fuel ih =>
    intro i j h
    rw [findFrom] at h
    by_cases hp : p i = true
    · rw [if_pos hp] at h
      obtain rfl : i = j := Option.some.inj h
      exact ⟨le_refl _, by omega, hp, fun k hk1 hk2 => absurd hk1 (by omega)⟩
    · rw [if_neg hp] at h
      obtain ⟨h1, h2, h3, h4⟩ := ih h
      refine ⟨by omega, by omega, h3, ?_⟩
      intro k hk1 hk2
      rcases Nat.eq_or_lt_of_le hk1 with rfl | hlt
      · simpa using hp
      · exact h4 k hlt hk2

theorem findFrom_eq_none {p : Nat → Bool} :
    ∀ {fuel i : Nat}, findFrom p i fuel = none → ∀ k, i ≤ k → k < i + fuel → p k = false := by
  intro fuel
  induction fuel with
  | zero => intro i _ k hk1 hk2; omega
  | succ fuel ih =>
    intro i h k hk1 hk2
    rw [findFrom] at h
    by_cases hp : p i = true
    · rw [if_pos hp] at h; exact absurd h (by simp)
    · rw [if_neg hp] at h
      rcases Nat.eq_or_lt_of_le hk1 with rfl | hlt
      · simpa using hp
      · exact ih h k hlt (by omega)

theorem findFrom_isSome {p : Nat → Bool} :
    ∀ {fuel i j : Nat}, i ≤ j → j < i + fuel → p j = true →
      (findFrom p i fuel).isSome = true := by
  intro fuel
  induction fuel with
  | zero => intro i j h1 h2; omega
  | succ fuel ih =>
    intro i j h1 h2 h3
    rw [findFrom]
    by_cases hp : p i = true
    · rw [if_pos hp]; rfl
    · rw [if_neg hp]
      rcases Nat.eq_or_lt_of_le h1 with rfl | hlt
      · exact absurd h3 hp
      · exact ih hlt (by omega) h3

theorem rfindDown_eq_some {p : Nat → Bool} :
    ∀ {n j : Nat}, rfindDown p n = some j →
      j ≤ n ∧ p j = true ∧ ∀ k, j < k → k ≤ n → p k = false := by
  intro n
  induction n with
  | zero =>
    intro j h
    rw [rfindDown] at h
    by_cases hp : p 0 = true
    · rw [if_pos hp] at h
      obtain rfl : (0 : Nat) = j := Option.some.inj h
      exact ⟨le_refl _, hp, fun k hk1 hk2 => by omega⟩
    · rw [if_neg hp] at h; exact absurd h (by simp)
  | succ n ih =>
    intro j h
    rw [rfindDown] at h
    by_cases hp : p (n + 1) = true
    · rw [if_pos hp] at h
      obtain rfl : n + 1 = j := Option.some.inj h
      exact ⟨le_refl _, hp, fun k hk1 hk2 => by omega⟩
    · rw [if_neg hp] at h
      obtain ⟨h1, h2, h3⟩ := ih h
      refine ⟨by omega, h2, ?_⟩
      intro k hk1 hk2
      rcases Nat.eq_or_lt_of_le hk2 with rfl | hlt
      · simpa using hp
      · exact h3 k hk1 (by omega)

theorem rfindDown_eq_none {p : Nat → Bool} :
    ∀ {n : Nat}, rfindDown p n = none → ∀ k, k ≤ n → p k = false := by
  intro n
  induction n with
  | zero =>
    intro h k hk
    rw [rfindDown] at h
    by_cases hp : p 0 = true
    · rw [if_pos hp] at h; exact absurd h (by simp)
    · obtain rfl : k = 0 := by omega
      simpa using hp
  | succ n ih =>
    intro h k hk
    rw [rfindDown] at h
    by_cases hp : p (n + 1) = true
    · rw [if_pos hp] at h; exact absurd h (by simp)
    · rw [if_neg hp] at h
      rcases Nat.eq_or_lt_of_le hk with rfl | hlt
      · simpa using hp
      · exact ih h k (by omega)

theorem rfindDown_isSome {p : Nat → Bool} :
    ∀ {n j : Nat}, j ≤ n → p j = true → (rfindDown p n).isSome = true := by
  intro n
  induction n with
  | zero =>
    intro j h1 h2
    obtain rfl : j = 0 := by omega
    rw [rfindDown, if_pos h2]; rfl
  | succ n ih =>
    intro j h1 h2
    rw [rfindDown]
    by_cases hp : p (n + 1) = true
    · rw [if_pos hp]; rfl
    · rw [if_neg hp]
      rcases Nat.eq_or_lt_of_le h1 with rfl | hlt
      · exact absurd h2 hp
      · exact ih (by omega) h2

/-! ## Correctness of `rustFind` and `rustRfind` -/

theorem subAt_of_ge {s w : List Char} {j : Nat} (h : (strBytes s).length ≤ j) :
    subAt s w j = subAt s w (strBytes s).length := by
  rw [subAt, subAt, List.drop_eq_nil_of_le h, List.drop_eq_nil_of_le (le_refl _)]

theorem subAt_len_false {s w : List Char} (hw : w ≠ []) :
    subAt s w (strBytes s).length = false := by
  rw [subAt, List.drop_eq_nil_of_le (le_refl _)]
  cases hb : strBytes w with
  | nil => exact absurd (strBytes_eq_nil hb) hw
  | cons b bs => simp [List.isPrefixOf]

theorem rustFind_eq_some {s w : List Char} {j : Nat} (h : rustFind s w = some j) :
    subAt s w j = true ∧ ∀ k, k < j → subAt s w k = false := by
  obtain ⟨_, _, h3, h4⟩ := findFrom_eq_some h
  exact ⟨h3, fun k hk => h4 k (Nat.zero_le k) hk⟩

theorem rustFind_eq_none {s w : List Char} (h : rustFind s w = none) (j : Nat) :
    subAt s w j = false := by
  by_cases hj : j < (strBytes s).length + 1
  · exact findFrom_eq_none h j (Nat.zero_le j) (by omega)
  · rw [subAt_of_ge (by omega)]
    exact findFrom_eq_none h (strBytes s).length (Nat.zero_le _) (by omega)

theorem rustFind_isSome {s w : List Char} {j : Nat} (hw : w ≠ []) (h : subAt s w j = true) :
    (rustFind s w).isSome = true := by
  have hj : j < (strBytes s).length := by
    by_contra hjn
    push_neg at hjn
    rw [subAt_of_ge hjn, subAt_len_false hw] at h
    exact absurd h (by simp)
  exact findFrom_isSome (Nat.zero_le j) (by omega) h

theorem rustRfind_eq_some {s w : List Char} {j : Nat} (hw : w ≠ [])
    (h : rustRfind s w = some j) :
    subAt s w j = true ∧ ∀ k, j < k → subAt s w k = false := by
  obtain ⟨h1, h2, h3⟩ := rfindDown_eq_some h
  refine ⟨h2, fun k hk => ?_⟩
  by_cases hkl : k ≤ (strBytes s).length
  · exact h3 k hk hkl
  · rw [subAt_of_ge (by omega)]
    exact subAt_len_false hw

theorem rustRfind_eq_none {s w : List Char} (hw : w ≠ []) (h : rustRfind s w = none)
    (j : Nat) : subAt s w j = false := by
  by_cases hj : j ≤ (strBytes s).length
  · exact rfindDown_eq_none h j hj
  · rw [subAt_of_ge (by omega)]
    exact subAt_len_false hw

theorem rustRfind_isSome {s w : List Char} {j : Nat} (hw : w ≠ []) (h : subAt s w j = true) :
    (rustRfind s w).isSome = true := by
  have hj : j < (strBytes s).length := by
    by_contra hjn
    push_neg at hjn
    rw [subAt_of_ge hjn, subAt_len_false hw] at h
    exact absurd h (by simp)
  exact rfindDown_isSome (by omega) h

/-! ## Decidable facts about the nine digit words -/

theorem DIGITS_ne_nil : ∀ w ∈ DIGITS, w ≠ [] := by decide

theorem DIGITS_ascii : ∀ w ∈ DIGITS, allAscii w = true := by decide

theorem DIGITS_prefix_free :
    ∀ w₁ ∈ DIGITS, ∀ w₂ ∈ DIGITS, w₁.isPrefixOf w₂ = true → w₁ = w₂ := by decide

theorem alpha_to_numeric_DIGITS :
    ∀ w ∈ DIGITS, alpha_to_numeric w = some [digitChar (wordVal w)] := by decide

theorem wordVal_range : ∀ w ∈ DIGITS, 1 ≤ wordVal w ∧ wordVal w ≤ 9 := by decide

/-- Two digit words occurring at the same position are equal: both are
prefixes of the same suffix, so one is a prefix of the other, and no digit
word is a proper prefix of another. -/
theorem word_unique_at {s w₁ w₂ : List Char} {i : Nat} (h₁ : w₁ ∈ DIGITS)
    (h₂ : w₂ ∈ DIGITS) (o₁ : charOccursAt s w₁ i = true)
    (o₂ : charOccursAt s w₂ i = true) : w₁ = w₂ := by
  rw [charOccursAt, List.isPrefixOf_iff_prefix] at o₁ o₂
  rcases List.prefix_or_prefix_of_prefix o₁ o₂ with h | h
  · exact DIGITS_prefix_free w₁ h₁ w₂ h₂ (List.isPrefixOf_iff_prefix.mpr h)
  · exact (DIGITS_prefix_free w₂ h₂ w₁ h₁ (List.isPrefixOf_iff_prefix.mpr h)).symm

/-! ## Correctness of `find_first_alpha_digit` -/

theorem minByIdx_cons_none {x : List Char × Nat} {xs : List (List Char × Nat)}
    (h : minByIdx xs = none) : minByIdx (x :: xs) = some x := by
  rw [minByIdx, h]

theorem minByIdx_cons_le {x y : List Char × Nat} {xs : List (List Char × Nat)}
    (h : minByIdx xs = some y) (hc : x.2 ≤ y.2) : minByIdx (x :: xs) = some x := by
  rw [minByIdx, h]
  dsimp only
  rw [if_pos hc]

theorem minByIdx_cons_gt {x y : List Char × Nat} {xs : List (List Char × Nat)}
    (h : minByIdx xs = some y) (hc : ¬ x.2 ≤ y.2) : minByIdx (x :: xs) = some y := by
  rw [minByIdx, h]
  dsimp only
  rw [if_neg hc]

theorem minByIdx_eq_none : ∀ {l : List (List Char × Nat)}, minByIdx l = none ↔ l = [] := by
  intro l
  cases l with
  | nil => simp [minByIdx]
  | cons x xs =>
    cases h : minByIdx xs with
    | none => rw [minByIdx_cons_none h]; simp
    | some y =>
      by_cases hc : x.2 ≤ y.2
      · rw [minByIdx_cons_le h hc]; simp
      · rw [minByIdx_cons_gt h hc]; simp

theorem minByIdx_spec : ∀ {l : List (List Char × Nat)} {x : List Char × Nat},
    minByIdx l = some x → x ∈ l ∧ ∀ y ∈ l, x.2 ≤ y.2 := by
  intro l
  induction l with
  | nil => intro x h; simp [minByIdx] at h
  | cons z zs ih =>
    intro x h
    cases hz : minByIdx zs with
    | none =>
      rw [minByIdx_cons_none hz] at h
      obtain rfl : z = x := Option.some.inj h
      have hnil : zs = [] := minByIdx_eq_none.mp hz
      subst hnil
      exact ⟨List.mem_singleton.mpr rfl, by simp⟩
    | some y =>
      obtain ⟨hy_mem, hy_min⟩ := ih hz
      by_cases hc : z.2 ≤ y.2
      · rw [minByIdx_cons_le hz hc] at h
        obtain rfl : z = x := Option.some.inj h
        refine ⟨List.mem_cons_self _ _, ?_⟩
        intro u hu
        rcases List.mem_cons.mp hu with rfl | hu
        · exact le_refl _
        · exact le_trans hc (hy_min u hu)
      · rw [minByIdx_cons_gt hz hc] at h
        obtain rfl : y = x := Option.some.inj h
        refine ⟨List.mem_cons_of_mem _ hy_mem, ?_⟩
        intro u hu
        rcases List.mem_cons.mp hu with rfl | hu
        · omega
        · exact hy_min u hu

theorem ffad_eq_some {s w : List Char} {i : Nat}
    (h : find_first_alpha_digit s = some (w, i)) :
    w ∈ DIGITS ∧ rustFind s w = some i ∧
      ∀ w' ∈ DIGITS, ∀ i', rustFind s w' = some i' → i ≤ i' := by
  obtain ⟨hmem, hmin⟩ := minByIdx_spec h
  obtain ⟨w', hw', hf⟩ := List.mem_filterMap.mp hmem
  obtain ⟨j, hj, hpair⟩ := Option.map_eq_some'.mp hf
  obtain ⟨rfl, rfl⟩ := Prod.mk.inj hpair
  refine ⟨hw', hj, ?_⟩
  intro w'' hw'' i' hi'
  have : (w'', i') ∈ DIGITS.filterMap (fun w => (rustFind s w).map (fun i => (w, i))) := by
    exact List.mem_filterMap.mpr ⟨w'', hw'', by rw [hi']; rfl⟩
  exact hmin (w'', i') this

theorem ffad_eq_none {s : List Char} (h : find_first_alpha_digit s = none) :
    ∀ w ∈ DIGITS, rustFind s w = none := by
  have hnil := minByIdx_eq_none.mp h
  intro w hw
  cases hf : rustFind s w with
  | none => rfl
  | some i =>
    have : (w, i) ∈ DIGITS.filterMap (fun w => (rustFind s w).map (fun i => (w, i))) :=
      List.mem_filterMap.mpr ⟨w, hw, by rw [hf]; rfl⟩
    rw [hnil] at this
    exact absurd this (List.not_mem_nil _)

theorem ffad_isSome {s w : List Char} {i : Nat} (hw : w ∈ DIGITS)
    (h : rustFind s w = some i) : (find_first_alpha_digit s).isSome = true := by
  cases hf : find_first_alpha_digit s with
  | none => rw [ffad_eq_none hf w hw] at h; exact absurd h (by simp)
  | some p => rfl

/-! ## Correctness of `find_last_alpha_digit` -/

theorem lastAlphaStep_none_r {s w : List Char} {acc : Option (List Char × Nat)}
    (h : rustRfind s w = none) : lastAlphaStep s acc w = acc := by
  rw [lastAlphaStep, h]

theorem lastAlphaStep_some_none {s w : List Char} {i : Nat}
    (h : rustRfind s w = some i) : lastAlphaStep s none w = some (w, i) := by
  rw [lastAlphaStep, h]

theorem lastAlphaStep_some_lt {s w w0 : List Char} {i last : Nat}
    (h : rustRfind s w = some i) (hc : last < i) :
    lastAlphaStep s (some (w0, last)) w = some (w, i) := by
  rw [lastAlphaStep, h]
  dsimp only
  rw [if_pos hc]

theorem lastAlphaStep_some_ge {s w w0 : List Char} {i last : Nat}
    (h : rustRfind s w = some i) (hc : ¬ last < i) :
    lastAlphaStep s (some (w0, last)) w = some (w0, last) := by
  rw [lastAlphaStep, h]
  dsimp only
  rw [if_neg hc]

theorem lastAlphaStep_eq_none {s : List Char} {acc : Option (List Char × Nat)}
    {w : List Char} :
    lastAlphaStep s acc w = none ↔ acc = none ∧ rustRfind s w = none := by
  cases hr : rustRfind s w with
  | none => rw [lastAlphaStep_none_r hr]; simp
  | some i =>
    cases acc with
    | none => rw [lastAlphaStep_some_none hr]; simp
    | some p =>
      obtain ⟨w0, last⟩ := p
      by_cases hc : last < i
      · rw [lastAlphaStep_some_lt hr hc]; simp
      · rw [lastAlphaStep_some_ge hr hc]; simp

theorem foldl_lastAlphaStep_none {s : List Char} :
    ∀ {ws : List (List Char)} {acc : Option (List Char × Nat)},
      ws.foldl (lastAlphaStep s) acc = none ↔
        acc = none ∧ ∀ w ∈ ws, rustRfind s w = none := by
  intro ws
  induction ws with
  | nil => intro acc; simp
  | cons v ws ih =>
    intro acc
    rw [List.foldl_cons, ih]
    constructor
    · rintro ⟨h1, h2⟩
      obtain ⟨ha, hv⟩ := lastAlphaStep_eq_none.mp h1
      exact ⟨ha, by
        intro w hw
        rcases List.mem_cons.mp hw with rfl | hw
        · exact hv
        · exact h2 w hw⟩
    · rintro ⟨ha, hall⟩
      refine ⟨lastAlphaStep_eq_none.mpr ⟨ha, hall v (List.mem_cons_self _ _)⟩, ?_⟩
      intro w hw
      exact hall w (List.mem_cons_of_mem _ hw)

theorem foldl_lastAlphaStep_spec {s : List Char} :
    ∀ {ws : List (List Char)} {acc : Option (List Char × Nat)} {w : List Char} {i : Nat},
      ws.foldl (lastAlphaStep s) acc = some (w, i) →
        (acc = some (w, i) ∨ (w ∈ ws ∧ rustRfind s w = some i)) ∧
        (∀ w' ∈ ws, ∀ i', rustRfind s w' = some i' → i' ≤ i) ∧
        (∀ w0 i0, acc = some (w0, i0) → i0 ≤ i) := by
  intro ws
  induction ws with
  | nil =>
    intro acc w i h
    rw [List.foldl_nil] at h
    refine ⟨Or.inl h, by simp, ?_⟩
    intro w0 i0 h0
    rw [h] at h0
    exact le_of_eq (congrArg Prod.snd (Option.some.inj h0)).symm
  | cons v ws ih =>
    intro acc w i h
    rw [List.foldl_cons] at h
    obtain ⟨hfirst, hmid, hlast⟩ := ih h
    have step_le : ∀ w0 i0, lastAlphaStep s acc v = some (w0, i0) → i0 ≤ i := hlast
    refine ⟨?_, ?_, ?_⟩
    · -- provenance
      rcases hfirst with hstep | ⟨hmem, hr⟩
      · cases hr : rustRfind s v with
        | none =>
          rw [lastAlphaStep_none_r hr] at hstep
          exact Or.inl hstep
        | some j =>
          cases acc with
          | none =>
            rw [lastAlphaStep_some_none hr] at hstep
            obtain ⟨rfl, rfl⟩ := Prod.mk.inj (Option.some.inj hstep)
            exact Or.inr ⟨List.mem_cons_self _ _, hr⟩
          | some p =>
            obtain ⟨w0, last⟩ := p
            by_cases hc : last < j
            · rw [lastAlphaStep_some_lt hr hc] at hstep
              obtain ⟨rfl, rfl⟩ := Prod.mk.inj (Option.some.inj hstep)
              exact Or.inr ⟨List.mem_cons_self _ _, hr⟩
            · rw [lastAlphaStep_some_ge hr hc] at hstep
              exact Or.inl hstep
      · exact Or.inr ⟨List.mem_cons_of_mem _ hmem, hr⟩
    · -- maximality over v :: ws
      intro w' hw' i' hi'
      rcases List.mem_cons.mp hw' with rfl | hw'
      · cases acc with
        | none => exact step_le w' i' (lastAlphaStep_some_none hi')
        | some p =>
          obtain ⟨w0, last⟩ := p
          by_cases hc : last < i'
          · exact step_le w' i' (lastAlphaStep_some_lt hi' hc)
          · have := step_le w0 last (lastAlphaStep_some_ge hi' hc)
            omega
      · exact hmid w' hw' i' hi'
    · -- every accumulator entry is bounded by the result
      intro w0 i0 h0
      subst h0
      cases hr : rustRfind s v with
      | none => exact step_le w0 i0 (lastAlphaStep_none_r hr)
      | some j =>
        by_cases hc : i0 < j
        · have hj := step_le v j (lastAlphaStep_some_lt hr hc)
          omega
        · exact step_le w0 i0 (lastAlphaStep_some_ge hr hc)

theorem flad_eq_some {s w : List Char} {i : Nat}
    (h : find_last_alpha_digit s = some (w, i)) :
    w ∈ DIGITS ∧ rustRfind s w = some i ∧
      ∀ w' ∈ DIGITS, ∀ i', rustRfind s w' = some i' → i' ≤ i := by
  obtain ⟨hfirst, hmid, _⟩ := foldl_lastAlphaStep_spec h
  rcases hfirst with hnone | ⟨hmem, hr⟩
  · exact absurd hnone (by simp)
  · exact ⟨hmem, hr, hmid⟩

theorem flad_eq_none {s : List Char} (h : find_last_alpha_digit s = none) :
    ∀ w ∈ DIGITS, rustRfind s w = none :=
  (foldl_lastAlphaStep_none.mp h).2

theorem flad_isSome {s w : List Char} {i : Nat} (hw : w ∈ DIGITS)
    (h : rustRfind s w = some i) : (find_last_alpha_digit s).isSome = true := by
  cases hf : find_last_alpha_digit s with
  | none => rw [flad_eq_none hf w hw] at h; exact absurd h (by simp)
  | some p => rfl

/-! ## Correctness of the numeric scans -/

theorem findNumAux_eq_none : ∀ {s : List Char} {i : Nat},
    findNumAux s i = none ↔ ∀ c ∈ s, rustIsNumeric c = false := by
  intro s
  induction s with
  | nil => intro i; simp [findNumAux]
  | cons c cs ih =>
    intro i
    by_cases hc : rustIsNumeric c = true
    · rw [findNumAux, if_pos hc]
      constructor
      · intro h; exact absurd h (by simp)
      · intro h; exact absurd (h c (List.mem_cons_self _ _)) (by simp [hc])
    · rw [findNumAux, if_neg hc, ih]
      have hcf : rustIsNumeric c = false := by simpa using hc
      constructor
      · intro h c' hc'
        rcases List.mem_cons.mp hc' with rfl | hc''
        · exact hcf
        · exact h c' hc''
      · intro h c' hc'
        exact h c' (List.mem_cons_of_mem _ hc')

theorem findNumAux_isSome : ∀ {s : List Char} {i : Nat},
    (∃ c ∈ s, rustIsNumeric c = true) → (findNumAux s i).isSome = true := by
  intro s
  induction s with
  | nil => intro i h; simp at h
  | cons c cs ih =>
    intro i h
    by_cases hc : rustIsNumeric c = true
    · rw [findNumAux, if_pos hc]; rfl
    · rw [findNumAux, if_neg hc]
      obtain ⟨c', hc', hnum⟩ := h
      rcases List.mem_cons.mp hc' with rfl | hmem
      · exact absurd hnum hc
      · exact ih ⟨c', hmem, hnum⟩

theorem findNumAux_some_mem : ∀ {s : List Char} {i : Nat} {c : Char} {j : Nat},
    findNumAux s i = some (c, j) → c ∈ s ∧ rustIsNumeric c = true ∧ i ≤ j := by
  intro s
  induction s with
  | nil => intro i c j h; simp [findNumAux] at h
  | cons d cs ih =>
    intro i c j h
    by_cases hd : rustIsNumeric d = true
    · rw [findNumAux, if_pos hd] at h
      obtain ⟨rfl, rfl⟩ := Prod.mk.inj (Option.some.inj h)
      exact ⟨List.mem_cons_self _ _, hd, le_refl _⟩
    · rw [findNumAux, if_neg hd] at h
      obtain ⟨h1, h2, h3⟩ := ih h
      exact ⟨List.mem_cons_of_mem _ h1, h2, by omega⟩

theorem findNumAux_append : ∀ (pre : List Char) {c : Char} {post : List Char} {i : Nat},
    rustIsNumeric c = true → (∀ c' ∈ pre, rustIsNumeric c' = false) →
    findNumAux (pre ++ c :: post) i = some (c, i + pre.length) := by
  intro pre
  induction pre with
  | nil =>
    intro c post i hc _
    rw [List.nil_append, findNumAux, if_pos hc]
    simp
  | cons d pre ih =>
    intro c post i hc hpre
    have hd : rustIsNumeric d = false := hpre d (List.mem_cons_self _ _)
    rw [List.cons_append, findNumAux, if_neg (by simp [hd]),
      ih hc (fun c' h' => hpre c' (List.mem_cons_of_mem _ h'))]
    rw [List.length_cons]
    congr 2
    omega

theorem rfindNumAux_cons_some {c : Char} {cs : List Char} {i : Nat} {r : Char × Nat}
    (h : rfindNumAux cs (i + 1) = some r) : rfindNumAux (c :: cs) i = some r := by
  rw [rfindNumAux, h]

theorem rfindNumAux_cons_none {c : Char} {cs : List Char} {i : Nat}
    (h : rfindNumAux cs (i + 1) = none) :
    rfindNumAux (c :: cs) i = if rustIsNumeric c then some (c, i) else none := by
  rw [rfindNumAux, h]

theorem rfindNumAux_eq_none : ∀ {s : List Char} {i : Nat},
    rfindNumAux s i = none ↔ ∀ c ∈ s, rustIsNumeric c = false := by
  intro s
  induction s with
  | nil => intro i; simp [rfindNumAux]
  | cons c cs ih =>
    intro i
    cases hr : rfindNumAux cs (i + 1) with
    | some r =>
      rw [rfindNumAux_cons_some hr]
      constructor
      · intro h; exact absurd h (by simp)
      · intro h
        have : rfindNumAux cs (i + 1) = none :=
          ih.mpr (fun c' hc' => h c' (List.mem_cons_of_mem _ hc'))
        rw [hr] at this
        exact absurd this (by simp)
    | none =>
      rw [rfindNumAux_cons_none hr]
      have hall := ih.mp hr
      by_cases hc : rustIsNumeric c = true
      · rw [if_pos hc]
        constructor
        · intro h; exact absurd h (by simp)
        · intro h; exact absurd (h c (List.mem_cons_self _ _)) (by simp [hc])
      · rw [if_neg hc]
        have hcf : rustIsNumeric c = false := by simpa using hc
        constructor
        · intro _ c' hc'
          rcases List.mem_cons.mp hc' with rfl | hmem
          · exact hcf
          · exact hall c' hmem
        · intro _; rfl

theorem rfindNumAux_isSome : ∀ {s : List Char} {i : Nat},
    (∃ c ∈ s, rustIsNumeric c = true) → (rfindNumAux s i).isSome = true := by
  intro s i h
  cases hr : rfindNumAux s i with
  | some r => rfl
  | none =>
    obtain ⟨c, hc, hnum⟩ := h
    rw [rfindNumAux_eq_none.mp hr c hc] at hnum
    exact absurd hnum (by simp)

theorem rfindNumAux_some_mem : ∀ {s : List Char} {i : Nat} {c : Char} {j : Nat},
    rfindNumAux s i = some (c, j) → c ∈ s ∧ rustIsNumeric c = true ∧ i ≤ j := by
  intro s
  induction s with
  | nil => intro i c j h; simp [rfindNumAux] at h
  | cons d cs ih =>
    intro i c j h
    cases hr : rfindNumAux cs (i + 1) with
    | some r =>
      rw [rfindNumAux_cons_some hr] at h
      rw [h] at hr
      obtain ⟨h1, h2, h3⟩ := ih hr
      exact ⟨List.mem_cons_of_mem _ h1, h2, by omega⟩
    | none =>
      rw [rfindNumAux_cons_none hr] at h
      by_cases hd : rustIsNumeric d = true
      · rw [if_pos hd] at h
        obtain ⟨rfl, rfl⟩ := Prod.mk.inj (Option.some.inj h)
        exact ⟨List.mem_cons_self _ _, hd, le_refl _⟩
      · rw [if_neg hd] at h
        exact absurd h (by simp)

theorem rfindNumAux_append : ∀ (pre : List Char) {c : Char} {post : List Char} {i : Nat},
    rustIsNumeric c = true → (∀ c' ∈ post, rustIsNumeric c' = false) →
    rfindNumAux (pre ++ c :: post) i = some (c, i + pre.length) := by
  intro pre
  induction pre with
  | nil =>
    intro c post i hc hpost
    rw [List.nil_append,
      rfindNumAux_cons_none (rfindNumAux_eq_none.mpr hpost), if_pos hc]
    simp
  | cons d pre ih =>
    intro c post i hc hpost
    rw [List.cons_append, rfindNumAux_cons_some (ih hc hpost), List.length_cons]
    congr 2
    omega

/-! ## Facts about digit characters and the word mapping -/

theorem digitChar_facts : ∀ n : Nat, n ≤ 9 → 1 ≤ n →
    isAsciiDigit (digitChar n) = true ∧ digitVal (digitChar n) = n ∧
      rustIsNumeric (digitChar n) = true ∧ (digitChar n).toNat < 128 := by decide

theorem asciiDigit_toNat {c : Char} (h : isAsciiDigit c = true) :
    48 ≤ c.toNat ∧ c.toNat ≤ 57 := by
  rw [isAsciiDigit, Bool.and_eq_true, decide_eq_true_eq, decide_eq_true_eq] at h
  exact h

theorem numeric_of_asciiDigit {c : Char} (h : isAsciiDigit c = true) :
    rustIsNumeric c = true := by
  have hlt : c.toNat < 128 := by
    have := asciiDigit_toNat h
    omega
  rw [rustIsNumeric_ascii hlt]
  exact h

theorem asciiDigit_of_numeric {c : Char} (hlt : c.toNat < 128)
    (h : rustIsNumeric c = true) : isAsciiDigit c = true := by
  rwa [rustIsNumeric_ascii hlt] at h

/-! ## Equations and shapes of the two digit selectors -/

theorem get_first_digit_nn {line : List Char} (hn : find_first_numeric_digit line = none)
    (ha : find_first_alpha_digit line = none) : get_first_digit line = none := by
  rw [get_first_digit, hn, ha]

theorem get_first_digit_sn {line nd : List Char} {ni : Nat}
    (hn : find_first_numeric_digit line = some (nd, ni))
    (ha : find_first_alpha_digit line = none) : get_first_digit line = some nd := by
  rw [get_first_digit, hn, ha]

theorem get_first_digit_ns {line ad : List Char} {ai : Nat}
    (hn : find_first_numeric_digit line = none)
    (ha : find_first_alpha_digit line = some (ad, ai)) :
    get_first_digit line = alpha_to_numeric ad := by
  rw [get_first_digit, hn, ha]

theorem get_first_digit_ss {line nd ad : List Char} {ni ai : Nat}
    (hn : find_first_numeric_digit line = some (nd, ni))
    (ha : find_first_alpha_digit line = some (ad, ai)) :
    get_first_digit line = if ni < ai then some nd else alpha_to_numeric ad := by
  rw [get_first_digit, hn, ha]

theorem get_last_digit_nn {line : List Char} (hn : find_last_numeric_digit line = none)
    (ha : find_last_alpha_digit line = none) : get_last_digit line = none := by
  rw [get_last_digit, hn, ha]

theorem get_last_digit_sn {line nd : List Char} {ni : Nat}
    (hn : find_last_numeric_digit line = some (nd, ni))
    (ha : find_last_alpha_digit line = none) : get_last_digit line = some nd := by
  rw [get_last_digit, hn, ha]

theorem get_last_digit_ns {line ad : List Char} {ai : Nat}
    (hn : find_last_numeric_digit line = none)
    (ha : find_last_alpha_digit line = some (ad, ai)) :
    get_last_digit line = alpha_to_numeric ad := by
  rw [get_last_digit, hn, ha]

theorem get_last_digit_ss {line nd ad : List Char} {ni ai : Nat}
    (hn : find_last_numeric_digit line = some (nd, ni))
    (ha : find_last_alpha_digit line = some (ad, ai)) :
    get_last_digit line = if ai < ni then some nd else alpha_to_numeric ad := by
  rw [get_last_digit, hn, ha]

theorem ffnumd_of_aux {line : List Char} {c : Char} {j : Nat}
    (h : findNumAux line 0 = some (c, j)) :
    find_first_numeric_digit line = some ([c], j) := by
  rw [find_first_numeric_digit, find_numeric_digit, h]
  rfl

theorem ffnumd_shape {line d : List Char} {j : Nat}
    (h : find_first_numeric_digit line = some (d, j)) :
    ∃ c, d = [c] ∧ findNumAux line 0 = some (c, j) := by
  rw [find_first_numeric_digit, find_numeric_digit] at h
  obtain ⟨⟨c, j'⟩, ha, hpair⟩ := Option.map_eq_some'.mp h
  obtain ⟨h1, h2⟩ := Prod.mk.inj hpair
  have h2' : j' = j := h2
  exact ⟨c, h1.symm, by rw [ha, h2']⟩

theorem ffnumd_eq_none_iff {line : List Char} :
    find_first_numeric_digit line = none ↔ findNumAux line 0 = none := by
  rw [find_first_numeric_digit, find_numeric_digit]
  cases h : findNumAux line 0 <;> simp

theorem flnumd_of_aux {line : List Char} {c : Char} {j : Nat}
    (h : rfindNumAux line 0 = some (c, j)) :
    find_last_numeric_digit line = some ([c], j) := by
  rw [find_last_numeric_digit, rev_find_numeric_digit, h]
  rfl

theorem flnumd_shape {line d : List Char} {j : Nat}
    (h : find_last_numeric_digit line = some (d, j)) :
    ∃ c, d = [c] ∧ rfindNumAux line 0 = some (c, j) := by
  rw [find_last_numeric_digit, rev_find_numeric_digit] at h
  obtain ⟨⟨c, j'⟩, ha, hpair⟩ := Option.map_eq_some'.mp h
  obtain ⟨h1, h2⟩ := Prod.mk.inj hpair
  have h2' : j' = j := h2
  exact ⟨c, h1.symm, by rw [ha, h2']⟩

theorem flnumd_eq_none_iff {line : List Char} :
    find_last_numeric_digit line = none ↔ rfindNumAux line 0 = none := by
  rw [find_last_numeric_digit, rev_find_numeric_digit]
  cases h : rfindNumAux line 0 <;> simp

theorem alpha_result_shape {ad d : List Char} (had : ad ∈ DIGITS)
    (h : alpha_to_numeric ad = some d) :
    ∃ n, 1 ≤ n ∧ n ≤ 9 ∧ d = [digitChar n] := by
  rw [alpha_to_numeric_DIGITS ad had] at h
  obtain ⟨h1, h2⟩ := wordVal_range ad had
  exact ⟨wordVal ad, h1, h2, (Option.some.inj h).symm⟩

theorem get_first_digit_shape {line d : List Char} (h : get_first_digit line = some d) :
    ∃ c, d = [c] ∧
      ((rustIsNumeric c = true ∧ c ∈ line) ∨ ∃ n, 1 ≤ n ∧ n ≤ 9 ∧ c = digitChar n) := by
  cases hn : find_first_numeric_digit line with
  | none =>
    cases ha : find_first_alpha_digit line with
    | none => rw [get_first_digit_nn hn ha] at h; exact absurd h (by simp)
    | some p =>
      obtain ⟨ad, ai⟩ := p
      rw [get_first_digit_ns hn ha] at h
      obtain ⟨n, h1, h2, rfl⟩ := alpha_result_shape (ffad_eq_some ha).1 h
      exact ⟨digitChar n, rfl, Or.inr ⟨n, h1, h2, rfl⟩⟩
  | some p =>
    obtain ⟨nd, ni⟩ := p
    have hnum : ∃ c, nd = [c] ∧ rustIsNumeric c = true ∧ c ∈ line := by
      obtain ⟨c, hc, haux⟩ := ffnumd_shape hn
      obtain ⟨hm1, hm2, _⟩ := findNumAux_some_mem haux
      exact ⟨c, hc, hm2, hm1⟩
    cases ha : find_first_alpha_digit line with
    | none =>
      rw [get_first_digit_sn hn ha] at h
      obtain rfl := Option.some.inj h
      obtain ⟨c, rfl, hc⟩ := hnum
      exact ⟨c, rfl, Or.inl hc⟩
    | some p =>
      obtain ⟨ad, ai⟩ := p
      rw [get_first_digit_ss hn ha] at h
      by_cases hlt : ni < ai
      · rw [if_pos hlt] at h
        obtain rfl := Option.some.inj h
        obtain ⟨c, rfl, hc⟩ := hnum
        exact ⟨c, rfl, Or.inl hc⟩
      · rw [if_neg hlt] at h
        obtain ⟨n, h1, h2, rfl⟩ := alpha_result_shape (ffad_eq_some ha).1 h
        exact ⟨digitChar n, rfl, Or.inr ⟨n, h1, h2, rfl⟩⟩

theorem get_last_digit_shape {line d : List Char} (h : get_last_digit line = some d) :
    ∃ c, d = [c] ∧
      ((rustIsNumeric c = true ∧ c ∈ line) ∨ ∃ n, 1 ≤ n ∧ n ≤ 9 ∧ c = digitChar n) := by
  cases hn : find_last_numeric_digit line with
  | none =>
    cases ha : find_last_alpha_digit line with
    | none => rw [get_last_digit_nn hn ha] at h; exact absurd h (by simp)
    | some p =>
      obtain ⟨ad, ai⟩ := p
      rw [get_last_digit_ns hn ha] at h
      obtain ⟨n, h1, h2, rfl⟩ := alpha_result_shape (flad_eq_some ha).1 h
      exact ⟨digitChar n, rfl, Or.inr ⟨n, h1, h2, rfl⟩⟩
  | some p =>
    obtain ⟨nd, ni⟩ := p
    have hnum : ∃ c, nd = [c] ∧ rustIsNumeric c = true ∧ c ∈ line := by
      obtain ⟨c, hc, haux⟩ := flnumd_shape hn
      obtain ⟨hm1, hm2, _⟩ := rfindNumAux_some_mem haux
      exact ⟨c, hc, hm2, hm1⟩
    cases ha : find_last_alpha_digit line with
    | none =>
      rw [get_last_digit_sn hn ha] at h
      obtain rfl := Option.some.inj h
      obtain ⟨c, rfl, hc⟩ := hnum
      exact ⟨c, rfl, Or.inl hc⟩
    | some p =>
      obtain ⟨ad, ai⟩ := p
      rw [get_last_digit_ss hn ha] at h
      by_cases hlt : ai < ni
      · rw [if_pos hlt] at h
        obtain rfl := Option.some.inj h
        obtain ⟨c, rfl, hc⟩ := hnum
        exact ⟨c, rfl, Or.inl hc⟩
      · rw [if_neg hlt] at h
        obtain ⟨n, h1, h2, rfl⟩ := alpha_result_shape (flad_eq_some ha).1 h
        exact ⟨digitChar n, rfl, Or.inr ⟨n, h1, h2, rfl⟩⟩

theorem get_first_digit_isSome_num {line : List Char} {c : Char} {j : Nat}
    (h : findNumAux line 0 = some (c, j)) : (get_first_digit line).isSome = true := by
  cases ha : find_first_alpha_digit line with
  | none => rw [get_first_digit_sn (ffnumd_of_aux h) ha]; rfl
  | some p =>
    obtain ⟨ad, ai⟩ := p
    rw [get_first_digit_ss (ffnumd_of_aux h) ha]
    by_cases hlt : j < ai
    · rw [if_pos hlt]; rfl
    · rw [if_neg hlt]
      rw [alpha_to_numeric_DIGITS ad (ffad_eq_some ha).1]
      rfl

theorem get_first_digit_isSome_alpha {line w : List Char} {i : Nat}
    (ha : find_first_alpha_digit line = some (w, i)) :
    (get_first_digit line).isSome = true := by
  have halpha : (alpha_to_numeric w).isSome = true := by
    rw [alpha_to_numeric_DIGITS w (ffad_eq_some ha).1]; rfl
  cases hn : find_first_numeric_digit line with
  | none =>
    rw [get_first_digit_ns hn ha]
    exact halpha
  | some p =>
    obtain ⟨nd, ni⟩ := p
    rw [get_first_digit_ss hn ha]
    by_cases hlt : ni < i
    · rw [if_pos hlt]; rfl
    · rw [if_neg hlt]; exact halpha

theorem get_last_digit_isSome_num {line : List Char} {c : Char} {j : Nat}
    (h : rfindNumAux line 0 = some (c, j)) : (get_last_digit line).isSome = true := by
  cases ha : find_last_alpha_digit line with
  | none => rw [get_last_digit_sn (flnumd_of_aux h) ha]; rfl
  | some p =>
    obtain ⟨ad, ai⟩ := p
    rw [get_last_digit_ss (flnumd_of_aux h) ha]
    by_cases hlt : ai < j
    · rw [if_pos hlt]; rfl
    · rw [if_neg hlt]
      rw [alpha_to_numeric_DIGITS ad (flad_eq_some ha).1]
      rfl

theorem get_last_digit_isSome_alpha {line w : List Char} {i : Nat}
    (ha : find_last_alpha_digit line = some (w, i)) :
    (get_last_digit line).isSome = true := by
  have halpha : (alpha_to_numeric w).isSome = true := by
    rw [alpha_to_numeric_DIGITS w (flad_eq_some ha).1]; rfl
  cases hn : find_last_numeric_digit line with
  | none =>
    rw [get_last_digit_ns hn ha]
    exact halpha
  | some p =>
    obtain ⟨nd, ni⟩ := p
    rw [get_last_digit_ss hn ha]
    by_cases hlt : i < ni
    · rw [if_pos hlt]; rfl
    · rw [if_neg hlt]; exact halpha

theorem get_first_digit_eq_none {line : List Char} (h : get_first_digit line = none) :
    findNumAux line 0 = none ∧ ∀ w ∈ DIGITS, rustFind line w = none := by
  cases hn : findNumAux line 0 with
  | some p =>
    obtain ⟨c, j⟩ := p
    have := get_first_digit_isSome_num hn
    rw [h] at this
    exact absurd this (by simp)
  | none =>
    refine ⟨rfl, ?_⟩
    cases ha : find_first_alpha_digit line with
    | none => exact ffad_eq_none ha
    | some p =>
      obtain ⟨w, i⟩ := p
      have := get_first_digit_isSome_alpha ha
      rw [h] at this
      exact absurd this (by simp)

theorem get_last_digit_eq_none {line : List Char} (h : get_last_digit line = none) :
    rfindNumAux line 0 = none ∧ ∀ w ∈ DIGITS, rustRfind line w = none := by
  cases hn : rfindNumAux line 0 with
  | some p =>
    obtain ⟨c, j⟩ := p
    have := get_last_digit_isSome_num hn
    rw [h] at this
    exact absurd this (by simp)
  | none =>
    refine ⟨rfl, ?_⟩
    cases ha : find_last_alpha_digit line with
    | none => exact flad_eq_none ha
    | some p =>
      obtain ⟨w, i⟩ := p
      have := get_last_digit_isSome_alpha ha
      rw [h] at this
      exact absurd this (by simp)

/-! ## Behaviour of `parse_u32` and `get_coord` -/

theorem asciiDigit_ne_plus {c : Char} (h : isAsciiDigit c = true) : c ≠ '+' := by
  rintro rfl
  revert h
  decide

theorem parse_u32_two_digits {c1 c2 : Char} (h1 : isAsciiDigit c1 = true)
    (h2 : isAsciiDigit c2 = true) :
    parse_u32 [c1, c2] = some (10 * digitVal c1 + digitVal c2) := by
  have hne : ¬ (([c1, c2] : List Char).head? = some '+') := by
    intro hcontr
    rw [List.head?_cons] at hcontr
    exact asciiDigit_ne_plus h1 (Option.some.inj hcontr)
  have hb1 := asciiDigit_toNat h1
  have hb2 := asciiDigit_toNat h2
  rw [parse_u32]
  dsimp only
  rw [if_neg hne]
  have hemp : ¬ (([c1, c2] : List Char).isEmpty = true) := by simp
  rw [if_neg hemp]
  have hall : ([c1, c2] : List Char).all isAsciiDigit = true := by
    simp [h1, h2]
  rw [if_pos hall]
  rw [List.foldl_cons, List.foldl_cons, List.foldl_nil]
  rw [if_pos (by unfold digitVal; omega)]
  congr 1
  unfold digitVal
  omega

theorem parse_u32_single {c : Char} (hc : isAsciiDigit c = false) :
    parse_u32 [c] = none := by
  rw [parse_u32]
  dsimp only
  by_cases hp : ([c] : List Char).head? = some '+'
  · rw [if_pos hp]
    rfl
  · rw [if_neg hp]
    have hemp : ¬ (([c] : List Char).isEmpty = true) := by simp
    rw [if_neg hemp]
    have hall : ¬ (([c] : List Char).all isAsciiDigit = true) := by
      simp [hc]
    rw [if_neg hall]

theorem get_coord_of_both {line : List Char} {c1 c2 : Char}
    (h1 : get_first_digit line = some [c1]) (h2 : get_last_digit line = some [c2])
    (ha1 : isAsciiDigit c1 = true) (ha2 : isAsciiDigit c2 = true) :
    get_coord line = some (10 * digitVal c1 + digitVal c2) := by
  have hb1 : c1.toNat < 128 := by have := asciiDigit_toNat ha1; omega
  have hb2 : c2.toNat < 128 := by have := asciiDigit_toNat ha2; omega
  rw [get_coord, h1, h2]
  dsimp only
  have hco : ([c1] ++ [c2] : List Char) = [c1, c2] := rfl
  rw [hco]
  have hlen : (strBytes [c1, c2]).length = 2 := by
    rw [strBytes_cons, strBytes_cons, strBytes_nil,
      utf8Bytes_ascii hb1, utf8Bytes_ascii hb2]
    rfl
  rw [if_pos hlen]
  exact parse_u32_two_digits ha1 ha2

theorem get_coord_some_parts {line : List Char} {v : Nat} (h : get_coord line = some v) :
    ∃ c1 c2, get_first_digit line = some [c1] ∧ get_last_digit line = some [c2] ∧
      isAsciiDigit c1 = true ∧ isAsciiDigit c2 = true ∧
      parse_u32 [c1, c2] = some v ∧ v = 10 * digitVal c1 + digitVal c2 := by
  cases h1 : get_first_digit line with
  | none =>
    cases h2 : get_last_digit line with
    | none =>
      rw [get_coord, h1, h2] at h
      exact absurd h (by simp [strBytes])
    | some d2 =>
      obtain ⟨c2, rfl, hshape2⟩ := get_last_digit_shape h2
      rw [get_coord, h1, h2] at h
      dsimp only at h
      rw [List.nil_append] at h
      by_cases hlen : (strBytes [c2]).length = 2
      · rw [if_pos hlen] at h
        have hna : isAsciiDigit c2 = false := by
          have : ¬ c2.toNat < 128 := by
            intro hlt
            rw [strBytes_cons, strBytes_nil, List.append_nil, utf8Bytes_ascii hlt] at hlen
            simp at hlen
          cases hd : isAsciiDigit c2 with
          | false => rfl
          | true => exact absurd (by have := asciiDigit_toNat hd; omega) this
        rw [parse_u32_single hna] at h
        exact absurd h (by simp)
      · rw [if_neg hlen] at h
        exact absurd h (by simp)
  | some d1 =>
    obtain ⟨c1, rfl, hshape1⟩ := get_first_digit_shape h1
    cases h2 : get_last_digit line with
    | none =>
      rw [get_coord, h1, h2] at h
      dsimp only at h
      rw [List.append_nil] at h
      by_cases hlen : (strBytes [c1]).length = 2
      · rw [if_pos hlen] at h
        have hna : isAsciiDigit c1 = false := by
          have : ¬ c1.toNat < 128 := by
            intro hlt
            rw [strBytes_cons, strBytes_nil, List.append_nil, utf8Bytes_ascii hlt] at hlen
            simp at hlen
          cases hd : isAsciiDigit c1 with
          | false => rfl
          | true => exact absurd (by have := asciiDigit_toNat hd; omega) this
        rw [parse_u32_single hna] at h
        exact absurd h (by simp)
      · rw [if_neg hlen] at h
        exact absurd h (by simp)
    | some d2 =>
      obtain ⟨c2, rfl, hshape2⟩ := get_last_digit_shape h2
      rw [get_coord, h1, h2] at h
      dsimp only at h
      have hco : ([c1] ++ [c2] : List Char) = [c1, c2] := rfl
      rw [hco] at h
      by_cases hlen : (strBytes [c1, c2]).length = 2
      · -- both characters must be single-byte, hence ASCII
        have hlen' : (utf8Bytes c1).length + (utf8Bytes c2).length = 2 := by
          rw [strBytes_cons, strBytes_cons, strBytes_nil, List.append_nil] at hlen
          simpa using hlen
        have hp1 : 1 ≤ (utf8Bytes c1).length :=
          List.length_pos.mpr (utf8Bytes_ne_nil c1)
        have hp2 : 1 ≤ (utf8Bytes c2).length :=
          List.length_pos.mpr (utf8Bytes_ne_nil c2)
        have hc1 : c1.toNat < 128 := utf8Bytes_length_one (by omega)
        have hc2 : c2.toNat < 128 := utf8Bytes_length_one (by omega)
        have ha1 : isAsciiDigit c1 = true := by
          rcases hshape1 with ⟨hnum, _⟩ | ⟨n, hn1, hn2, rfl⟩
          · exact asciiDigit_of_numeric hc1 hnum
          · exact (digitChar_facts n hn2 hn1).1
        have ha2 : isAsciiDigit c2 = true := by
          rcases hshape2 with ⟨hnum, _⟩ | ⟨n, hn1, hn2, rfl⟩
          · exact asciiDigit_of_numeric hc2 hnum
          · exact (digitChar_facts n hn2 hn1).1
        rw [if_pos hlen, parse_u32_two_digits ha1 ha2] at h
        refine ⟨c1, c2, rfl, rfl, ha1, ha2, ?_, (Option.some.inj h).symm⟩
        rw [parse_u32_two_digits ha1 ha2, h]
      · rw [if_neg hlen] at h
        exact absurd h (by simp)

/-! ## Behaviour of the accumulation loop -/

theorem addCoord_none_left (l : List Char) : addCoord none l = none := by
  cases hg : get_coord l <;> simp [addCoord, hg]

theorem addCoord_some_some {l : List Char} {a c : Nat} (hg : get_coord l = some c) :
    addCoord (some a) l = if a + c < 4294967296 then some (a + c) else none := by
  simp [addCoord, hg]

theorem addCoord_some_none {l : List Char} {a : Nat} (hg : get_coord l = none) :
    addCoord (some a) l = none := by
  simp [addCoord, hg]

theorem foldl_addCoord_none : ∀ ls : List (List Char),
    List.foldl addCoord none ls = none := by
  intro ls
  induction ls with
  | nil => rfl
  | cons l ls ih => rw [List.foldl_cons, addCoord_none_left, ih]

theorem totalOf_nil : totalOf [] = 0 := rfl

theorem totalOf_cons {l : List Char} {ls : List (List Char)} {c : Nat}
    (hg : get_coord l = some c) : totalOf (l :: ls) = c + totalOf ls := by
  simp [totalOf, hg]

theorem foldl_addCoord_char : ∀ (ls : List (List Char)) (a : Nat), a < 4294967296 →
    List.foldl addCoord (some a) ls =
      if (∀ l ∈ ls, (get_coord l).isSome = true) ∧ a + totalOf ls < 4294967296
      then some (a + totalOf ls) else none := by
  intro ls
  induction ls with
  | nil =>
    intro a ha
    rw [List.foldl_nil, if_pos ⟨by simp, by simpa [totalOf_nil] using ha⟩]
    rw [totalOf_nil, Nat.add_zero]
  | cons l ls ih =>
    intro a ha
    rw [List.foldl_cons]
    cases hg : get_coord l with
    | none =>
      rw [addCoord_some_none hg, foldl_addCoord_none]
      rw [if_neg]
      rintro ⟨hall, _⟩
      have := hall l (List.mem_cons_self _ _)
      rw [hg] at this
      exact absurd this (by simp)
    | some c =>
      have htot : totalOf (l :: ls) = c + totalOf ls := totalOf_cons hg
      rw [addCoord_some_some hg]
      by_cases hlt : a + c < 4294967296
      · rw [if_pos hlt, ih _ hlt]
        apply if_congr
        · constructor
          · rintro ⟨hall, hb⟩
            refine ⟨?_, by omega⟩
            intro l' hl'
            rcases List.mem_cons.mp hl' with rfl | hl'
            · rw [hg]; rfl
            · exact hall l' hl'
          · rintro ⟨hall, hb⟩
            refine ⟨fun l' hl' => hall l' (List.mem_cons_of_mem _ hl'), by omega⟩
        · rw [htot, Nat.add_assoc]
        · rfl
      · rw [if_neg hlt, foldl_addCoord_none, if_neg]
        rintro ⟨_, hb⟩
        rw [htot] at hb
        omega

theorem run_lines_char (lines : List (List Char)) :
    run_lines lines =
      if (∀ l ∈ lines, (get_coord l).isSome = true) ∧ totalOf lines < 4294967296
      then some (totalOf lines) else none := by
  rw [run_lines, foldl_addCoord_char lines 0 (by omega)]
  simp only [Nat.zero_add]

theorem run_lines_perm {l1 l2 : List (List Char)} (hp : l1.Perm l2) :
    run_lines l1 = run_lines l2 := by
  rw [run_lines_char, run_lines_char]
  have htot : totalOf l1 = totalOf l2 := (hp.map _).sum_eq
  apply if_congr
  · rw [htot]
    constructor
    · rintro ⟨hall, hb⟩
      exact ⟨fun l hl => hall l (hp.mem_iff.mpr hl), hb⟩
    · rintro ⟨hall, hb⟩
      exact ⟨fun l hl => hall l (hp.mem_iff.mp hl), hb⟩
  · rw [htot]
  · rfl

/-! ## Bridging the spec-side vocabulary to the implementation (ASCII lines) -/

theorem findNumAux_of_firstNumAt {s : List Char} {c : Char} {i : Nat}
    (hA : allAscii s = true) (h : firstNumAt s c i) : findNumAux s 0 = some (c, i) := by
  obtain ⟨pre, post, rfl, rfl, hd, hpre⟩ := h
  have hnums : ∀ c' ∈ pre, rustIsNumeric c' = false := by
    intro c' hc'
    have hmem : c' ∈ pre ++ c :: post := List.mem_append.mpr (Or.inl hc')
    rw [rustIsNumeric_ascii (allAscii_mem hA hmem)]
    exact hpre c' hc'
  rw [findNumAux_append pre (numeric_of_asciiDigit hd) hnums, Nat.zero_add]

theorem rfindNumAux_of_lastNumAt {s : List Char} {c : Char} {i : Nat}
    (hA : allAscii s = true) (h : lastNumAt s c i) : rfindNumAux s 0 = some (c, i) := by
  obtain ⟨pre, post, rfl, rfl, hd, hpost⟩ := h
  have hnums : ∀ c' ∈ post, rustIsNumeric c' = false := by
    intro c' hc'
    have hmem : c' ∈ pre ++ c :: post :=
      List.mem_append.mpr (Or.inr (List.mem_cons_of_mem _ hc'))
    rw [rustIsNumeric_ascii (allAscii_mem hA hmem)]
    exact hpost c' hc'
  rw [rfindNumAux_append pre (numeric_of_asciiDigit hd) hnums, Nat.zero_add]

theorem ffad_of_firstWordAt {s w : List Char} {i : Nat} (hA : allAscii s = true)
    (h : firstWordAt s w i) : find_first_alpha_digit s = some (w, i) := by
  obtain ⟨hw, hocc, hmin⟩ := h
  have hwa := DIGITS_ascii w hw
  have hwn := DIGITS_ne_nil w hw
  have hsub : subAt s w i = true := by rw [subAt_ascii hA hwa]; exact hocc
  obtain ⟨iw, hiw⟩ := Option.isSome_iff_exists.mp (rustFind_isSome hwn hsub)
  obtain ⟨p, hp⟩ := Option.isSome_iff_exists.mp (ffad_isSome hw hiw)
  obtain ⟨w', i'⟩ := p
  obtain ⟨hw', hr', hmin'⟩ := ffad_eq_some hp
  -- the found index i' is itself a word occurrence, so i ≤ i'
  have hocc' : charOccursAt s w' i' = true := by
    rw [← subAt_ascii hA (DIGITS_ascii w' hw')]
    exact (rustFind_eq_some hr').1
  have hii' : i ≤ i' := hmin w' hw' i' hocc'
  -- rustFind of w is at most i, and i' is at most that, so i' = i
  have hiw_le : iw ≤ i := by
    obtain ⟨_, hfmin⟩ := rustFind_eq_some hiw
    by_cases hc : i < iw
    · rw [hfmin i hc] at hsub; exact absurd hsub (by simp)
    · omega
  have : i' ≤ iw := hmin' w hw iw hiw
  have hieq : i' = i := by omega
  subst hieq
  obtain rfl : w' = w := word_unique_at hw' hw hocc' hocc
  exact hp

theorem flad_of_lastWordAt {s w : List Char} {i : Nat} (hA : allAscii s = true)
    (h : lastWordAt s w i) : find_last_alpha_digit s = some (w, i) := by
  obtain ⟨hw, hocc, hmax⟩ := h
  have hwa := DIGITS_ascii w hw
  have hwn := DIGITS_ne_nil w hw
  have hsub : subAt s w i = true := by rw [subAt_ascii hA hwa]; exact hocc
  obtain ⟨iw, hiw⟩ := Option.isSome_iff_exists.mp (rustRfind_isSome hwn hsub)
  obtain ⟨p, hp⟩ := Option.isSome_iff_exists.mp (flad_isSome hw hiw)
  obtain ⟨w', i'⟩ := p
  obtain ⟨hw', hr', hmax'⟩ := flad_eq_some hp
  have hocc' : charOccursAt s w' i' = true := by
    rw [← subAt_ascii hA (DIGITS_ascii w' hw')]
    exact (rustRfind_eq_some (DIGITS_ne_nil w' hw') hr').1
  have hii' : i' ≤ i := hmax w' hw' i' hocc'
  have hiw_ge : i ≤ iw := by
    obtain ⟨_, hfmax⟩ := rustRfind_eq_some hwn hiw
    by_cases hc : iw < i
    · rw [hfmax i hc] at hsub; exact absurd hsub (by simp)
    · omega
  have : iw ≤ i' := hmax' w hw iw hiw
  have hieq : i' = i := by omega
  subst hieq
  obtain rfl : w' = w := word_unique_at hw' hw hocc' hocc
  exact hp

theorem ffad_none_of_nowords {s : List Char} (hA : allAscii s = true)
    (h : ∀ w ∈ DIGITS, ∀ j, charOccursAt s w j = false) :
    find_first_alpha_digit s = none := by
  cases hf : find_first_alpha_digit s with
  | none => rfl
  | some p =>
    obtain ⟨w, i⟩ := p
    obtain ⟨hw, hr, _⟩ := ffad_eq_some hf
    have hocc : charOccursAt s w i = true := by
      rw [← subAt_ascii hA (DIGITS_ascii w hw)]
      exact (rustFind_eq_some hr).1
    rw [h w hw i] at hocc
    exact absurd hocc (by simp)

theorem flad_none_of_nowords {s : List Char} (hA : allAscii s = true)
    (h : ∀ w ∈ DIGITS, ∀ j, charOccursAt s w j = false) :
    find_last_alpha_digit s = none := by
  cases hf : find_last_alpha_digit s with
  | none => rfl
  | some p =>
    obtain ⟨w, i⟩ := p
    obtain ⟨hw, hr, _⟩ := flad_eq_some hf
    have hocc : charOccursAt s w i = true := by
      rw [← subAt_ascii hA (DIGITS_ascii w hw)]
      exact (rustRfind_eq_some (DIGITS_ne_nil w hw) hr).1
    rw [h w hw i] at hocc
    exact absurd hocc (by simp)

theorem findNumAux_none_of_nodigits {s : List Char} (hA : allAscii s = true)
    (h : ∀ c ∈ s, isAsciiDigit c = false) : findNumAux s 0 = none := by
  apply findNumAux_eq_none.mpr
  intro c hc
  rw [rustIsNumeric_ascii (allAscii_mem hA hc)]
  exact h c hc

theorem rfindNumAux_none_of_nodigits {s : List Char} (hA : allAscii s = true)
    (h : ∀ c ∈ s, isAsciiDigit c = false) : rfindNumAux s 0 = none := by
  apply rfindNumAux_eq_none.mpr
  intro c hc
  rw [rustIsNumeric_ascii (allAscii_mem hA hc)]
  exact h c hc

theorem get_first_digit_ascii_shape {line d : List Char} (hA : allAscii line = true)
    (h : get_first_digit line = some d) : ∃ c, d = [c] ∧ isAsciiDigit c = true := by
  obtain ⟨c, rfl, hc⟩ := get_first_digit_shape h
  rcases hc with ⟨hnum, hmem⟩ | ⟨n, h1, h2, rfl⟩
  · exact ⟨c, rfl, asciiDigit_of_numeric (allAscii_mem hA hmem) hnum⟩
  · exact ⟨digitChar n, rfl, (digitChar_facts n h2 h1).1⟩

theorem get_last_digit_ascii_shape {line d : List Char} (hA : allAscii line = true)
    (h : get_last_digit line = some d) : ∃ c, d = [c] ∧ isAsciiDigit c = true := by
  obtain ⟨c, rfl, hc⟩ := get_last_digit_shape h
  rcases hc with ⟨hnum, hmem⟩ | ⟨n, h1, h2, rfl⟩
  · exact ⟨c, rfl, asciiDigit_of_numeric (allAscii_mem hA hmem) hnum⟩
  · exact ⟨digitChar n, rfl, (digitChar_facts n h2 h1).1⟩

theorem get_coord_none_of_nodigit {s : List Char} (hA : allAscii s = true)
    (h1 : ∀ c ∈ s, isAsciiDigit c = false)
    (h2 : ∀ w ∈ DIGITS, ∀ i, charOccursAt s w i = false) : get_coord s = none := by
  have hfn : get_first_digit s = none :=
    get_first_digit_nn (ffnumd_eq_none_iff.mpr (findNumAux_none_of_nodigits hA h1))
      (ffad_none_of_nowords hA h2)
  have hln : get_last_digit s = none :=
    get_last_digit_nn (flnumd_eq_none_iff.mpr (rfindNumAux_none_of_nodigits hA h1))
      (flad_none_of_nowords hA h2)
  rw [get_coord, hfn, hln]
  rfl

theorem get_coord_isSome_of_occ {s : List Char} (hA : allAscii s = true)
    (hocc : hasDigitOcc s) : (get_coord s).isSome = true := by
  have hfirst : (get_first_digit s).isSome = true := by
    rcases hocc with ⟨c, hc, hd⟩ | ⟨w, hw, i, hi⟩
    · have := @findNumAux_isSome s 0 ⟨c, hc, numeric_of_asciiDigit hd⟩
      obtain ⟨⟨c', j⟩, hj⟩ := Option.isSome_iff_exists.mp this
      exact get_first_digit_isSome_num hj
    · have hsub : subAt s w i = true := by
        rw [subAt_ascii hA (DIGITS_ascii w hw)]; exact hi
      obtain ⟨iw, hiw⟩ :=
        Option.isSome_iff_exists.mp (rustFind_isSome (DIGITS_ne_nil w hw) hsub)
      obtain ⟨⟨w', i'⟩, hp⟩ := Option.isSome_iff_exists.mp (ffad_isSome hw hiw)
      exact get_first_digit_isSome_alpha hp
  have hlast : (get_last_digit s).isSome = true := by
    rcases hocc with ⟨c, hc, hd⟩ | ⟨w, hw, i, hi⟩
    · have := @rfindNumAux_isSome s 0 ⟨c, hc, numeric_of_asciiDigit hd⟩
      obtain ⟨⟨c', j⟩, hj⟩ := Option.isSome_iff_exists.mp this
      exact get_last_digit_isSome_num hj
    · have hsub : subAt s w i = true := by
        rw [subAt_ascii hA (DIGITS_ascii w hw)]; exact hi
      obtain ⟨iw, hiw⟩ :=
        Option.isSome_iff_exists.mp (rustRfind_isSome (DIGITS_ne_nil w hw) hsub)
      obtain ⟨⟨w', i'⟩, hp⟩ := Option.isSome_iff_exists.mp (flad_isSome hw hiw)
      exact get_last_digit_isSome_alpha hp
  obtain ⟨d1, hd1⟩ := Option.isSome_iff_exists.mp hfirst
  obtain ⟨d2, hd2⟩ := Option.isSome_iff_exists.mp hlast
  obtain ⟨c1, rfl, ha1⟩ := get_first_digit_ascii_shape hA hd1
  obtain ⟨c2, rfl, ha2⟩ := get_last_digit_ascii_shape hA hd2
  rw [get_coord_of_both hd1 hd2 ha1 ha2]
  rfl

/-! ## The claims -/

/-- C3: each of the spec's concrete example lines extracts to the stated
value, and on the overlapping input "twone" the first digit is 2 (word "two"
at index 0), the last digit is 1 (word "one" at index 2), and the value
is 21. -/
theorem C3_spec_examples :
    get_coord ("two1nine".toList) = some 29 ∧
    get_coord ("eightwothree".toList) = some 83 ∧
    get_coord ("abcone2threexyz".toList) = some 13 ∧
    get_coord ("xtwone3four".toList) = some 24 ∧
    get_coord ("4nineeightseven2".toList) = some 42 ∧
    get_coord ("zoneight234".toList) = some 14 ∧
    get_coord ("7pqrstsixteen".toList) = some 76 ∧
    get_first_digit ("twone".toList) = some ['2'] ∧
    get_last_digit ("twone".toList) = some ['1'] ∧
    find_first_alpha_digit ("twone".toList) = some ("two".toList, 0) ∧
    find_last_alpha_digit ("twone".toList) = some ("one".toList, 2) ∧
    get_coord ("twone".toList) = some 21 := by decide

/-- C1 (counterexample): on the line "٣one5" both an ASCII numeral ('5', the
leftmost one, at character index 4) and a digit word ("one", leftmost
occurrence at index 1) occur; the numeral's index is not smaller than the
word's, so the claim demands the word's mapped value '1'; but
`get_first_digit` returns the Eastern Arabic numeral '٣' selected by the
Unicode-wide `is_numeric` scan. -/
theorem C1_counterexample :
    firstNumAt ("٣one5".toList) '5' 4 ∧
    firstWordAt ("٣one5".toList) ("one".toList) 1 ∧
    ¬ (4 < 1) ∧
    get_first_digit ("٣one5".toList) = some ['٣'] ∧
    (['٣'] : List Char) ≠ ['5'] ∧
    (['٣'] : List Char) ≠ [digitChar (wordVal ("one".toList))] := by
  refine ⟨⟨['٣', 'o', 'n', 'e'], [], by decide, rfl, by decide, by decide⟩,
    ⟨by decide, by decide, ?_⟩, by omega, by decide, by decide, by decide⟩
  intro w' hw' j hj
  cases j with
  | zero =>
    have h0 : ∀ w'' ∈ DIGITS, charOccursAt ("٣one5".toList) w'' 0 = false := by decide
    rw [h0 w' hw'] at hj
    exact absurd hj (by simp)
  | succ n => omega

/-- C1 (amended: restricted to lines consisting solely of ASCII characters,
where the Unicode-wide numeric scan recognizes exactly the ASCII numerals):
with both an ASCII numeral and a digit word present, `get_first_digit`
returns the leftmost numeral iff its index is strictly smaller than the
leftmost word's index and otherwise the word's mapped value, and
`get_last_digit` returns the rightmost numeral iff its index is strictly
greater than the maximum rightmost word index and otherwise the word's
mapped value; if only one kind is present, that kind is used. -/
theorem C1_selection_ascii (s : List Char) (hA : allAscii s = true) :
    (∀ c ni w ai, firstNumAt s c ni → firstWordAt s w ai →
      get_first_digit s = if ni < ai then some [c] else some [digitChar (wordVal w)]) ∧
    (∀ c ni w ai, lastNumAt s c ni → lastWordAt s w ai →
      get_last_digit s = if ai < ni then some [c] else some [digitChar (wordVal w)]) ∧
    (∀ c ni, firstNumAt s c ni → (∀ w ∈ DIGITS, ∀ j, charOccursAt s w j = false) →
      get_first_digit s = some [c]) ∧
    (∀ c ni, lastNumAt s c ni → (∀ w ∈ DIGITS, ∀ j, charOccursAt s w j = false) →
      get_last_digit s = some [c]) ∧
    (∀ w ai, firstWordAt s w ai → (∀ c ∈ s, isAsciiDigit c = false) →
      get_first_digit s = some [digitChar (wordVal w)]) ∧
    (∀ w ai, lastWordAt s w ai → (∀ c ∈ s, isAsciiDigit c = false) →
      get_last_digit s = some [digitChar (wordVal w)]) := by
  refine ⟨?_, ?_, ?_, ?_, ?_, ?_⟩
  · intro c ni w ai hn hw
    have hnum := ffnumd_of_aux (findNumAux_of_firstNumAt hA hn)
    have halpha := ffad_of_firstWordAt hA hw
    rw [get_first_digit_ss hnum halpha, alpha_to_numeric_DIGITS w hw.1]
  · intro c ni w ai hn hw
    have hnum := flnumd_of_aux (rfindNumAux_of_lastNumAt hA hn)
    have halpha := flad_of_lastWordAt hA hw
    rw [get_last_digit_ss hnum halpha, alpha_to_numeric_DIGITS w hw.1]
  · intro c ni hn hnw
    exact get_first_digit_sn (ffnumd_of_aux (findNumAux_of_firstNumAt hA hn))
      (ffad_none_of_nowords hA hnw)
  · intro c ni hn hnw
    exact get_last_digit_sn (flnumd_of_aux (rfindNumAux_of_lastNumAt hA hn))
      (flad_none_of_nowords hA hnw)
  · intro w ai hw hnd
    rw [get_first_digit_ns (ffnumd_eq_none_iff.mpr (findNumAux_none_of_nodigits hA hnd))
      (ffad_of_firstWordAt hA hw), alpha_to_numeric_DIGITS w hw.1]
  · intro w ai hw hnd
    rw [get_last_digit_ns (flnumd_eq_none_iff.mpr (rfindNumAux_none_of_nodigits hA hnd))
      (flad_of_lastWordAt hA hw), alpha_to_numeric_DIGITS w hw.1]

/-- Witness for C1's amended theorem at the line "1two". -/
theorem C1_selection_ascii_witness : get_first_digit ("1two".toList) = some ['1'] := by
  have hmin : ∀ w' ∈ DIGITS, ∀ j, charOccursAt ("1two".toList) w' j = true → 1 ≤ j := by
    intro w' hw' j hj
    cases j with
    | zero =>
      have h0 : ∀ w'' ∈ DIGITS, charOccursAt ("1two".toList) w'' 0 = false := by decide
      rw [h0 w' hw'] at hj
      exact absurd hj (by simp)
    | succ n => omega
  have h := (C1_selection_ascii ("1two".toList) (by decide)).1 '1' 0 ("two".toList) 1
    ⟨[], "two".toList, by decide, rfl, by decide, by decide⟩
    ⟨by decide, by decide, hmin⟩
  simpa using h

/-- C2 (counterexample): the line "5٣" contains a digit occurrence (the ASCII
numeral '5'), yet extraction aborts (`get_coord` is `none`): the last-scan
picks the two-byte Eastern Arabic numeral '٣', so the assertion
`coord.len() == 2` fails. -/
theorem C2_counterexample :
    ('5' ∈ ("5٣".toList)) ∧ isAsciiDigit '5' = true ∧
    get_coord ("5٣".toList) = none := by decide

/-- C2 (amended: restricted to lines consisting solely of ASCII characters):
`get_coord` returns a value exactly when the line contains at least one digit
occurrence (ASCII numeral or digit word); with no digit occurrence it aborts
(`none`), never returning a silent default. -/
theorem C2_extraction_iff_ascii (s : List Char) (hA : allAscii s = true) :
    ((get_coord s).isSome = true ↔ hasDigitOcc s) ∧
    (¬ hasDigitOcc s → get_coord s = none) := by
  have hmp : ¬ hasDigitOcc s → get_coord s = none := by
    intro hno
    rw [hasDigitOcc] at hno
    push_neg at hno
    obtain ⟨h1, h2⟩ := hno
    apply get_coord_none_of_nodigit hA
    · intro c hc
      simpa using h1 c hc
    · intro w hw i
      simpa using h2 w hw i
  refine ⟨⟨?_, get_coord_isSome_of_occ hA⟩, hmp⟩
  intro hsome
  by_contra hno
  rw [hmp hno] at hsome
  exact absurd hsome (by simp)

/-- Witness for C2's amended theorem at the one-digit line "7". -/
theorem C2_extraction_iff_ascii_witness :
    ((get_coord ("7".toList)).isSome = true ↔ hasDigitOcc ("7".toList)) ∧
    (¬ hasDigitOcc ("7".toList) → get_coord ("7".toList) = none) :=
  C2_extraction_iff_ascii _ (by decide)

/-- C4 (counterexample): the numeric scans select the Eastern Arabic numeral
'٣' (U+0663), which is not an ASCII numeral, so the recognized set is not
exactly '0'..'9'. -/
theorem C4_counterexample :
    find_first_numeric_digit ['٣'] = some (['٣'], 0) ∧
    find_last_numeric_digit ['٣'] = some (['٣'], 0) ∧
    isAsciiDigit '٣' = false := by decide

/-- C4 (amended): the characters the numeric scans recognize are exactly
those satisfying Unicode `char::is_numeric`; on ASCII characters this
coincides with '0'..'9', but the recognized set strictly contains the ASCII
numerals. -/
theorem C4_numeric_charset :
    (∀ s d j, find_first_numeric_digit s = some (d, j) →
      ∃ c, d = [c] ∧ rustIsNumeric c = true) ∧
    (∀ s d j, find_last_numeric_digit s = some (d, j) →
      ∃ c, d = [c] ∧ rustIsNumeric c = true) ∧
    (∀ c, rustIsNumeric c = true →
      find_first_numeric_digit [c] = some ([c], 0) ∧
      find_last_numeric_digit [c] = some ([c], 0)) ∧
    (∀ c : Char, c.toNat < 128 → rustIsNumeric c = isAsciiDigit c) ∧
    (∃ c, rustIsNumeric c = true ∧ isAsciiDigit c = false) := by
  refine ⟨?_, ?_, ?_, fun c h => rustIsNumeric_ascii h, ⟨'٣', by decide⟩⟩
  · intro s d j h
    obtain ⟨c, rfl, haux⟩ := ffnumd_shape h
    exact ⟨c, rfl, (findNumAux_some_mem haux).2.1⟩
  · intro s d j h
    obtain ⟨c, rfl, haux⟩ := flnumd_shape h
    exact ⟨c, rfl, (rfindNumAux_some_mem haux).2.1⟩
  · intro c hc
    constructor
    · exact ffnumd_of_aux
        (@findNumAux_append [] c [] 0 hc (by simp))
    · exact flnumd_of_aux
        (@rfindNumAux_append [] c [] 0 hc (by simp))

/-- Witness for C4's amended theorem at the circled digit '①'. -/
theorem C4_numeric_charset_witness :
    find_first_numeric_digit ['①'] = some (['①'], 0) ∧
    find_last_numeric_digit ['①'] = some (['①'], 0) :=
  C4_numeric_charset.2.2.1 '①' (by decide)

/-- C5: when `find_last_alpha_digit` returns a word and an index, the word is
one of the nine digit words, it occurs at that (byte) index, and no digit
word occurs at any strictly larger index — each word contributes only its
rightmost occurrence and words compete by those rightmost positions; and
whenever some digit word occurs at all, the function returns a result. -/
theorem C5_last_alpha_max (s : List Char) :
    (∀ w i, find_last_alpha_digit s = some (w, i) →
      w ∈ DIGITS ∧ subAt s w i = true ∧
      ∀ w' ∈ DIGITS, ∀ j, subAt s w' j = true → j ≤ i) ∧
    (∀ w ∈ DIGITS, ∀ j, subAt s w j = true →
      (find_last_alpha_digit s).isSome = true) := by
  constructor
  · intro w i h
    obtain ⟨hw, hr, hmax⟩ := flad_eq_some h
    have hwn := DIGITS_ne_nil w hw
    obtain ⟨hocc, _⟩ := rustRfind_eq_some hwn hr
    refine ⟨hw, hocc, ?_⟩
    intro w' hw' j hj
    have hw'n := DIGITS_ne_nil w' hw'
    obtain ⟨i', hi'⟩ := Option.isSome_iff_exists.mp (rustRfind_isSome hw'n hj)
    have hle := hmax w' hw' i' hi'
    obtain ⟨_, hmax'⟩ := rustRfind_eq_some hw'n hi'
    by_cases hji : i' < j
    · rw [hmax' j hji] at hj
      exact absurd hj (by simp)
    · omega
  · intro w hw j hj
    obtain ⟨i', hi'⟩ :=
      Option.isSome_iff_exists.mp (rustRfind_isSome (DIGITS_ne_nil w hw) hj)
    exact flad_isSome hw hi'

/-- Witness for C5 at the line "twone" (the word "one" at byte index 2). -/
theorem C5_last_alpha_max_witness :
    ("one".toList ∈ DIGITS ∧ subAt ("twone".toList) ("one".toList) 2 = true ∧
      ∀ w' ∈ DIGITS, ∀ j, subAt ("twone".toList) w' j = true → j ≤ 2) :=
  (C5_last_alpha_max ("twone".toList)).1 ("one".toList) 2 (by decide)

/-- C6 (counterexample): the line "5٣" contains only ASCII numerals among its
digit occurrences ('5' is its only ASCII numeral and no digit word occurs),
so the claim demands the value 55; but extraction aborts (`none`). -/
theorem C6_counterexample :
    ('5' ∈ ("5٣".toList)) ∧ isAsciiDigit '5' = true ∧
    (∀ c ∈ ("5٣".toList), isAsciiDigit c = true → c = '5') ∧
    (∀ w ∈ DIGITS, ∀ j, charOccursAt ("5٣".toList) w j = false) ∧
    get_coord ("5٣".toList) = none := by
  refine ⟨by decide, by decide, by decide, ?_, by decide⟩
  intro w hw j
  cases hcc : charOccursAt ("5٣".toList) w j with
  | false => rfl
  | true =>
    exfalso
    have hlt : j < ("5٣".toList).length :=
      charOccursAt_lt_length hcc (DIGITS_ne_nil w hw)
    have hj2 : j < 2 := by simpa using hlt
    have hall : ∀ w' ∈ DIGITS, ∀ j' < 2, charOccursAt ("5٣".toList) w' j' = false := by
      decide
    rw [hall w hw j hj2] at hcc
    exact Bool.noConfusion hcc

/-- C6 (amended: restricted to lines consisting solely of ASCII characters):
a line whose digit occurrences are only ASCII numerals extracts to the
two-digit number formed from its first and last numeral; a line with exactly
one digit occurrence (numeral or word) extracts to a value with equal tens
and units digits. -/
theorem C6_numeral_lines_ascii (s : List Char) (hA : allAscii s = true) :
    (∀ c1 i1 c2 i2, (∀ w ∈ DIGITS, ∀ j, charOccursAt s w j = false) →
      firstNumAt s c1 i1 → lastNumAt s c2 i2 →
      get_coord s = some (10 * digitVal c1 + digitVal c2)) ∧
    (∀ c i, (∀ w ∈ DIGITS, ∀ j, charOccursAt s w j = false) →
      firstNumAt s c i → lastNumAt s c i →
      get_coord s = some (11 * digitVal c)) ∧
    (∀ w i, (∀ c ∈ s, isAsciiDigit c = false) →
      firstWordAt s w i → lastWordAt s w i →
      get_coord s = some (11 * wordVal w)) := by
  have hpart1 : ∀ c1 i1 c2 i2, (∀ w ∈ DIGITS, ∀ j, charOccursAt s w j = false) →
      firstNumAt s c1 i1 → lastNumAt s c2 i2 →
      get_coord s = some (10 * digitVal c1 + digitVal c2) := by
    intro c1 i1 c2 i2 hnw hf hl
    have hfd : get_first_digit s = some [c1] :=
      get_first_digit_sn (ffnumd_of_aux (findNumAux_of_firstNumAt hA hf))
        (ffad_none_of_nowords hA hnw)
    have hld : get_last_digit s = some [c2] :=
      get_last_digit_sn (flnumd_of_aux (rfindNumAux_of_lastNumAt hA hl))
        (flad_none_of_nowords hA hnw)
    obtain ⟨_, _, _, _, ha1, _⟩ := hf
    obtain ⟨_, _, _, _, ha2, _⟩ := hl
    exact get_coord_of_both hfd hld ha1 ha2
  refine ⟨hpart1, ?_, ?_⟩
  · intro c i hnw hf hl
    rw [hpart1 c i c i hnw hf hl]
    congr 1
    omega
  · intro w i hnd hf hl
    have hw := hf.1
    obtain ⟨hv1, hv2⟩ := wordVal_range w hw
    have hfd : get_first_digit s = some [digitChar (wordVal w)] := by
      rw [get_first_digit_ns
        (ffnumd_eq_none_iff.mpr (findNumAux_none_of_nodigits hA hnd))
        (ffad_of_firstWordAt hA hf), alpha_to_numeric_DIGITS w hw]
    have hld : get_last_digit s = some [digitChar (wordVal w)] := by
      rw [get_last_digit_ns
        (flnumd_eq_none_iff.mpr (rfindNumAux_none_of_nodigits hA hnd))
        (flad_of_lastWordAt hA hl), alpha_to_numeric_DIGITS w hw]
    have hdf := digitChar_facts (wordVal w) hv2 hv1
    rw [get_coord_of_both hfd hld hdf.1 hdf.1, hdf.2.1]
    congr 1
    omega

/-- Witness for C6's amended theorem at the line "1abc2". -/
theorem C6_numeral_lines_ascii_witness : get_coord ("1abc2".toList) = some 12 := by
  have hnw : ∀ w ∈ DIGITS, ∀ j, charOccursAt ("1abc2".toList) w j = false := by
    intro w hw j
    cases hcc : charOccursAt ("1abc2".toList) w j with
    | false => rfl
    | true =>
      exfalso
      have hlt : j < ("1abc2".toList).length :=
        charOccursAt_lt_length hcc (DIGITS_ne_nil w hw)
      have hj5 : j < 5 := by simpa using hlt
      have hall : ∀ w' ∈ DIGITS, ∀ j' < 5,
          charOccursAt ("1abc2".toList) w' j' = false := by decide
      rw [hall w hw j hj5] at hcc
      exact Bool.noConfusion hcc
  have h := (C6_numeral_lines_ascii ("1abc2".toList) (by decide)).1 '1' 0 '2' 4 hnw
    ⟨[], "abc2".toList, by decide, rfl, by decide, by decide⟩
    ⟨"1abc".toList, [], by decide, by decide, by decide, by decide⟩
  exact h.trans (by decide)

/-- C7: if every line extracts successfully, the printed total is the
arithmetic sum of the per-line values, and reordering the lines does not
change the program's result. -/
theorem C7_sum_permutation (lines : List (List Char))
    (h : ∀ l ∈ lines, (get_coord l).isSome = true) :
    (totalOf lines < 4294967296 → run_lines lines = some (totalOf lines)) ∧
    (∀ S, run_lines lines = some S → S = totalOf lines) ∧
    (∀ lines', lines.Perm lines' → run_lines lines' = run_lines lines) := by
  refine ⟨?_, ?_, fun lines' hp => (run_lines_perm hp).symm⟩
  · intro hb
    rw [run_lines_char, if_pos ⟨h, hb⟩]
  · intro S hS
    rw [run_lines_char] at hS
    by_cases hc : (∀ l ∈ lines, (get_coord l).isSome = true) ∧
        totalOf lines < 4294967296
    · rw [if_pos hc] at hS
      exact (Option.some.inj hS).symm
    · rw [if_neg hc] at hS
      exact absurd hS (by simp)

/-- Witness for C7 at a two-line input. -/
theorem C7_sum_permutation_witness :
    (totalOf ["two1nine".toList, "twone".toList] < 4294967296 →
        run_lines ["two1nine".toList, "twone".toList] =
          some (totalOf ["two1nine".toList, "twone".toList])) ∧
    (∀ S, run_lines ["two1nine".toList, "twone".toList] = some S →
        S = totalOf ["two1nine".toList, "twone".toList]) ∧
    (∀ lines', List.Perm ["two1nine".toList, "twone".toList] lines' →
        run_lines lines' = run_lines ["two1nine".toList, "twone".toList]) :=
  C7_sum_permutation _ (by decide)

/-- C8: whenever `get_coord` returns a value, the value lies in [0, 99] and
was parsed from the two-character string formed by the first-digit character
followed by the last-digit character. -/
theorem C8_coord_range_parse (line : List Char) (v : Nat)
    (h : get_coord line = some v) :
    v ≤ 99 ∧ ∃ c1 c2, get_first_digit line = some [c1] ∧
      get_last_digit line = some [c2] ∧ isAsciiDigit c1 = true ∧
      isAsciiDigit c2 = true ∧ parse_u32 [c1, c2] = some v := by
  obtain ⟨c1, c2, h1, h2, ha1, ha2, hp, hv⟩ := get_coord_some_parts h
  have hb1 := asciiDigit_toNat ha1
  have hb2 := asciiDigit_toNat ha2
  refine ⟨?_, c1, c2, h1, h2, ha1, ha2, hp⟩
  rw [hv]
  unfold digitVal
  omega

/-- Witness for C8 at the line "two1nine". -/
theorem C8_coord_range_parse_witness :
    29 ≤ 99 ∧ ∃ c1 c2, get_first_digit ("two1nine".toList) = some [c1] ∧
      get_last_digit ("two1nine".toList) = some [c2] ∧ isAsciiDigit c1 = true ∧
      isAsciiDigit c2 = true ∧ parse_u32 [c1, c2] = some 29 :=
  C8_coord_range_parse _ 29 (by decide)

/-- C9: the numeric scans classify characters with Unicode-wide
`char::is_numeric`: any such character in a line is selected as a numeric
digit occurrence (the scans return the first/last such character), and
non-ASCII numerics such as the Eastern Arabic '٣' and the circled '①'
satisfy the predicate. -/
theorem C9_unicode_numeric :
    (∀ pre (c : Char) post, rustIsNumeric c = true →
      (∀ c' ∈ pre, rustIsNumeric c' = false) →
      find_first_numeric_digit (pre ++ c :: post) = some ([c], pre.length)) ∧
    (∀ pre (c : Char) post, rustIsNumeric c = true →
      (∀ c' ∈ post, rustIsNumeric c' = false) →
      find_last_numeric_digit (pre ++ c :: post) = some ([c], pre.length)) ∧
    (∀ s c, c ∈ s → rustIsNumeric c = true →
      (find_first_numeric_digit s).isSome = true ∧
      (find_last_numeric_digit s).isSome = true) ∧
    rustIsNumeric '٣' = true ∧ rustIsNumeric '①' = true := by
  refine ⟨?_, ?_, ?_, by decide, by decide⟩
  · intro pre c post hc hpre
    have h := @findNumAux_append pre c post 0 hc hpre
    rw [Nat.zero_add] at h
    exact ffnumd_of_aux h
  · intro pre c post hc hpost
    have h := @rfindNumAux_append pre c post 0 hc hpost
    rw [Nat.zero_add] at h
    exact flnumd_of_aux h
  · intro s c hc hnum
    constructor
    · rw [find_first_numeric_digit, find_numeric_digit]
      obtain ⟨p, hp⟩ :=
        Option.isSome_iff_exists.mp (@findNumAux_isSome s 0 ⟨c, hc, hnum⟩)
      rw [hp]
      rfl
    · rw [find_last_numeric_digit, rev_find_numeric_digit]
      obtain ⟨p, hp⟩ :=
        Option.isSome_iff_exists.mp (@rfindNumAux_isSome s 0 ⟨c, hc, hnum⟩)
      rw [hp]
      rfl

/-- Witness for C9: in "a٣" the Eastern Arabic numeral is found at index 1. -/
theorem C9_unicode_numeric_witness :
    find_first_numeric_digit ('a' :: '٣' :: []) = some (['٣'], 1) := by
  have h := C9_unicode_numeric.1 ['a'] '٣' [] (by decide) (by decide)
  simpa using h

/-- C10: on a line consisting solely of ASCII characters the byte offsets
reported by the word searches and the character-enumeration positions
reported by the numeric scans coincide: the byte string is the map of
`Char.toNat`, its length is the character count, and byte-level substring
occurrence agrees with character-level occurrence at the same index (the
nine digit words are themselves ASCII). -/
theorem C10_index_coincidence_ascii (s : List Char) (hA : allAscii s = true) :
    strBytes s = s.map Char.toNat ∧ (strBytes s).length = s.length ∧
    (∀ w, allAscii w = true → ∀ j, subAt s w j = charOccursAt s w j) ∧
    (∀ w ∈ DIGITS, allAscii w = true) := by
  refine ⟨strBytes_ascii hA, ?_, fun w hw j => subAt_ascii hA hw j, DIGITS_ascii⟩
  rw [strBytes_ascii hA, List.length_map]

/-- Witness for C10 at the line "abc1". -/
theorem C10_index_coincidence_ascii_witness :
    strBytes ("abc1".toList) = ("abc1".toList).map Char.toNat ∧
    (strBytes ("abc1".toList)).length = ("abc1".toList).length ∧
    (∀ w, allAscii w = true → ∀ j,
      subAt ("abc1".toList) w j = charOccursAt ("abc1".toList) w j) ∧
    (∀ w ∈ DIGITS, allAscii w = true) :=
  C10_index_coincidence_ascii _ (by decide)

end AocDay1
